import Mathlib

/-!
Verification of the chunking / embedding-lifecycle / hybrid-retrieval core of the
vault-mcp repository, as a shallow embedding in Lean.

Texts are modelled as `List Char`, JavaScript numbers used as array indices as
`Int` (the repository only ever uses them at integral values), and embedding
vectors as `List ℚ`.  External collaborators (the Supabase store, the OpenAI
embedding API, the BM25 library, yaml/date formatting) are modelled as explicit
environment parameters; everything computed in-process is translated from the
source.
-/

namespace VaultMCP

/-! ### JavaScript string primitives -/

/-- The length of a list of characters as a JavaScript number. -/
def intLen (s : List Char) : Int := s.length

/-- JavaScript `String.prototype.slice` on a list of characters: negative
arguments count from the end of the string and both are clamped to
`[0, length]`. -/
def jsSlice (s : List Char) (a b : Int) : List Char :=
  let n : Int := intLen s
  let a' : Int := if a < 0 then max (n + a) 0 else min a n
  let b' : Int := if b < 0 then max (n + b) 0 else min b n
  (s.take b'.toNat).drop a'.toNat

/-- JavaScript `String.prototype.substring`: both arguments are clamped to
`[0, length]` and swapped when given in the wrong order. -/
def jsSubstring (s : List Char) (a b : Int) : List Char :=
  let n : Int := intLen s
  let a' : Int := min (max a 0) n
  let b' : Int := min (max b 0) n
  jsSlice s (min a' b') (max a' b')

/-- Whether `pat` occurs at the very beginning of `s`. -/
def leadsWith : List Char → List Char → Bool
  | [], _ => true
  | _ :: _, [] => false
  | p :: ps, c :: cs => p = c && leadsWith ps cs

/-- JavaScript `String.prototype.lastIndexOf`: the largest index at which `pat`
occurs in `s`, or `-1` when it does not occur. -/
def lastIndexOf (s pat : List Char) : Int :=
  match ((List.range (s.length + 1)).filter (fun i => leadsWith pat (s.drop i))).getLast? with
  | some i => (i : Int)
  | none => -1

/-- JavaScript `String.prototype.indexOf`: the smallest index at which `pat`
occurs in `s`, or `-1`. -/
def firstIndexOf (s pat : List Char) : Int :=
  match ((List.range (s.length + 1)).filter (fun i => leadsWith pat (s.drop i))).head? with
  | some i => (i : Int)
  | none => -1

/-- JavaScript `String.prototype.includes`. -/
def containsSub (s pat : List Char) : Bool :=
  (List.range (s.length + 1)).any (fun i => leadsWith pat (s.drop i))

/-- Lower-casing of a text, modelling `String.prototype.toLowerCase`. -/
def toLowerText (s : List Char) : List Char := s.map Char.toLower

/-! ### Chunker (`chunkText`, src/services/embeddings.ts)

The `while` loop of `chunkText` is embedded with an explicit fuel parameter;
`none` means the fuel ran out, so a result of `none` for every fuel value means
the loop never terminates. -/

/-- Cut position for the window starting at `start`: `min (start + maxChunkSize)
(length)`, moved back to the right-most sentence boundary found in the last 500
characters of the window (when the window does not already reach the end of the
text). -/
def chunkCut (text : List Char) (maxChunkSize start : Int) : Int :=
  let e := min (start + maxChunkSize) (intLen text)
  if e < intLen text then
    let searchStart := max start (e - 500)
    let searchText := jsSlice text searchStart e
    let bestBoundary :=
      max (max (lastIndexOf searchText ['.', ' ']) (lastIndexOf searchText ['!', ' ']))
        (max (lastIndexOf searchText ['?', ' ']) (lastIndexOf searchText ['\n', '\n']))
    if bestBoundary > 0 then searchStart + bestBoundary + 2 else e
  else e

/-- The `while (start < text.length)` loop of `chunkText`, with fuel. -/
def chunkLoop (text : List Char) (maxChunkSize overlap : Int) :
    Nat → Int → List (List Char) → Option (List (List Char))
  | 0, _, _ => none
  | fuel + 1, start, chunks =>
    if start < intLen text then
      let e := chunkCut text maxChunkSize start
      let chunk := jsSlice text start e
      let start' := e - overlap
      let start'' := if start' ≤ intLen chunk - maxChunkSize then e else start'
      chunkLoop text maxChunkSize overlap fuel start'' (chunks ++ [chunk])
    else some chunks

/-- The `chunkText` helper of src/services/embeddings.ts (fuelled). -/
def chunkTextFuel (fuel : Nat) (text : List Char) (maxChunkSize overlap : Int) :
    Option (List (List Char)) :=
  if intLen text ≤ maxChunkSize then some [text]
  else chunkLoop text maxChunkSize overlap fuel 0 []

/-! ### Basic facts about the string primitives -/

theorem leadsWith_length_le {pat s : List Char} (h : leadsWith pat s = true) :
    pat.length ≤ s.length := by
  induction pat generalizing s with
  | nil => simp
  | cons p ps ih =>
    cases s with
    | nil => simp [leadsWith] at h
    | cons c cs =>
      simp only [leadsWith, Bool.and_eq_true] at h
      simpa using Nat.succ_le_succ (ih h.2)

theorem lastIndexOf_neg_one_or_occurs (s pat : List Char) :
    lastIndexOf s pat = -1 ∨
      ∃ i : Nat, lastIndexOf s pat = (i : Int) ∧ i ≤ s.length ∧
        leadsWith pat (s.drop i) = true := by
  unfold lastIndexOf
  cases hl : ((List.range (s.length + 1)).filter
      (fun i => leadsWith pat (s.drop i))).getLast? with
  | none => left; rfl
  | some i =>
    right
    have hmem : i ∈ (List.range (s.length + 1)).filter (fun i => leadsWith pat (s.drop i)) :=
      List.mem_of_getLast?_eq_some hl
    have h1 := List.of_mem_filter hmem
    have h2 := List.mem_of_mem_filter hmem
    refine ⟨i, rfl, ?_, by simpa using h1⟩
    exact Nat.lt_succ_iff.mp (List.mem_range.mp h2)

/-- A non-negative result of `lastIndexOf` for a two-character pattern is at most
`length - 2`. -/
theorem lastIndexOf_le_of_two {s : List Char} {p q : Char} :
    lastIndexOf s [p, q] ≤ intLen s - 2 ∨ lastIndexOf s [p, q] = -1 := by
  rcases lastIndexOf_neg_one_or_occurs s [p, q] with h | ⟨i, hi, hle, hocc⟩
  · right; exact h
  · left
    have hlen : 2 ≤ (s.drop i).length := leadsWith_length_le hocc
    rw [List.length_drop] at hlen
    rw [hi]
    unfold intLen
    omega

theorem jsSlice_length {s : List Char} {a b : Int} (ha : 0 ≤ a) (hab : a ≤ b)
    (hb : b ≤ intLen s) : intLen (jsSlice s a b) = b - a := by
  unfold jsSlice intLen at *
  have ha' : ¬ a < 0 := by omega
  have hb' : ¬ b < 0 := by omega
  simp only [ha', hb', if_false]
  have hmin_a : min a (s.length : Int) = a := by omega
  have hmin_b : min b (s.length : Int) = b := by omega
  rw [hmin_a, hmin_b]
  simp only [List.length_drop, List.length_take]
  omega

/-! ### Non-termination of the chunk loop with the default parameters -/

/-- With the default parameters, the cut position of a window that starts inside
the text lies strictly beyond `start`, within the text, and at position 500 or
later. -/
theorem chunkCut_bounds (text : List Char) (start : Int)
    (h0 : 0 ≤ start) (h1 : start < intLen text) (hlen : 6000 < intLen text) :
    start < chunkCut text 6000 start ∧ chunkCut text 6000 start ≤ intLen text ∧
      500 ≤ chunkCut text 6000 start := by
  simp only [chunkCut]
  rcases lt_or_ge (start + 6000) (intLen text) with hm | hm
  · rw [min_eq_left (le_of_lt hm), if_pos hm,
      max_eq_right (by omega : start ≤ start + 6000 - 500)]
    have hst : intLen (jsSlice text (start + 6000 - 500) (start + 6000)) =
        start + 6000 - (start + 6000 - 500) :=
      jsSlice_length (by omega) (by omega) (by omega)
    have hb1' : lastIndexOf (jsSlice text (start + 6000 - 500) (start + 6000)) ['.', ' '] ≤ 498 := by
      rcases lastIndexOf_le_of_two (s := jsSlice text (start + 6000 - 500) (start + 6000))
        (p := '.') (q := ' ') with h | h <;> omega
    have hb2' : lastIndexOf (jsSlice text (start + 6000 - 500) (start + 6000)) ['!', ' '] ≤ 498 := by
      rcases lastIndexOf_le_of_two (s := jsSlice text (start + 6000 - 500) (start + 6000))
        (p := '!') (q := ' ') with h | h <;> omega
    have hb3' : lastIndexOf (jsSlice text (start + 6000 - 500) (start + 6000)) ['?', ' '] ≤ 498 := by
      rcases lastIndexOf_le_of_two (s := jsSlice text (start + 6000 - 500) (start + 6000))
        (p := '?') (q := ' ') with h | h <;> omega
    have hb4' : lastIndexOf (jsSlice text (start + 6000 - 500) (start + 6000)) ['\n', '\n'] ≤ 498 := by
      rcases lastIndexOf_le_of_two (s := jsSlice text (start + 6000 - 500) (start + 6000))
        (p := '\n') (q := '\n') with h | h <;> omega
    have hmax : max (max (lastIndexOf (jsSlice text (start + 6000 - 500) (start + 6000)) ['.', ' '])
        (lastIndexOf (jsSlice text (start + 6000 - 500) (start + 6000)) ['!', ' ']))
        (max (lastIndexOf (jsSlice text (start + 6000 - 500) (start + 6000)) ['?', ' '])
        (lastIndexOf (jsSlice text (start + 6000 - 500) (start + 6000)) ['\n', '\n'])) ≤ 498 :=
      max_le (max_le hb1' hb2') (max_le hb3' hb4')
    by_cases hpos : max (max (lastIndexOf (jsSlice text (start + 6000 - 500) (start + 6000)) ['.', ' '])
        (lastIndexOf (jsSlice text (start + 6000 - 500) (start + 6000)) ['!', ' ']))
        (max (lastIndexOf (jsSlice text (start + 6000 - 500) (start + 6000)) ['?', ' '])
        (lastIndexOf (jsSlice text (start + 6000 - 500) (start + 6000)) ['\n', '\n'])) > 0
    · rw [if_pos hpos]
      refine ⟨by omega, by omega, by omega⟩
    · rw [if_neg hpos]
      refine ⟨by omega, by omega, by omega⟩
  · rw [min_eq_right hm, if_neg (lt_irrefl _)]
    refine ⟨h1, le_refl _, by omega⟩

/-- With the default parameters the loop of `chunkText` never reaches
`start ≥ text.length`: the overlap step always leaves `start` at least 500
characters short of the end, and the progress guard
`start <= lastChunk.length - maxChunkSize` can only fire for `start ≤ -5500`. -/
theorem chunkLoop_eq_none (text : List Char) (hlen : 6000 < intLen text) :
    ∀ (fuel : Nat) (start : Int) (chunks : List (List Char)),
      0 ≤ start → start < intLen text →
      chunkLoop text 6000 500 fuel start chunks = none := by
  intro fuel
  induction fuel with
  | zero => intro start chunks _ _; rfl
  | succ n ih =>
    intro start chunks h0 h1
    simp only [chunkLoop]
    rw [if_pos h1]
    obtain ⟨ha, hb, hc⟩ := chunkCut_bounds text start h0 h1 hlen
    have hchunk : intLen (jsSlice text start (chunkCut text 6000 start)) =
        chunkCut text 6000 start - start :=
      jsSlice_length h0 (le_of_lt ha) hb
    have hguard : ¬ (chunkCut text 6000 start - 500 ≤
        intLen (jsSlice text start (chunkCut text 6000 start)) - 6000) := by
      rw [hchunk]; omega
    simp only [hguard, if_false]
    exact ih _ _ (by omega) (by omega)

/-- C1: the claim states that `chunkText` terminates on every input because the
progress guard forces `start = chunk_end` whenever the overlap step would not
advance `start`.  The code has the opposite behaviour: for every text longer
than `maxChunkSize = 6000` characters (with the default `overlap = 500`), the
loop never terminates, because `start = end - overlap` always stays at least 500
characters short of `text.length` and the guard
`start <= lastChunk.length - maxChunkSize` is equivalent to `start ≤ -5500`,
which never holds.  Formally: for every fuel value the fuelled loop fails to
finish. -/
theorem chunkText_diverges (text : List Char) (hlen : 6000 < intLen text) (fuel : Nat) :
    chunkTextFuel fuel text 6000 500 = none := by
  unfold chunkTextFuel
  rw [if_neg (by omega)]
  exact chunkLoop_eq_none text hlen fuel 0 [] (le_refl 0) (by omega)

/-- Witness for `chunkText_diverges`: a concrete 6001-character text on which
the chunk loop runs out of any amount of fuel. -/
theorem chunkText_diverges_witness :
    6000 < intLen (List.replicate 6001 'a') ∧
      chunkTextFuel 5 (List.replicate 6001 'a') 6000 500 = none := by
  have h : 6000 < intLen (List.replicate 6001 'a') := by
    unfold intLen
    rw [List.length_replicate]
    norm_num
  exact ⟨h, chunkText_diverges (List.replicate 6001 'a') h 5⟩

/-! ### Embedding client (`generateChunkedEmbeddings`, src/services/embeddings.ts)

The OpenAI backend is modelled by an environment `env : Nat → Option (List ℚ)`
giving, for each chunk position, either the embedding vector returned by the
API or `none` when that call throws. -/

/-- One row of the result of `generateChunkedEmbeddings`. -/
structure ChunkRecord where
  chunk_index : Nat
  chunk_text : List Char
  embedding : List ℚ
deriving DecidableEq

/-- The `for` loop of `generateChunkedEmbeddings`: requests an embedding for
each chunk in order and skips (continues past) every chunk whose call fails. -/
def embedChunksLoop (env : Nat → Option (List ℚ)) : List (List Char) → Nat → List ChunkRecord
  | [], _ => []
  | c :: rest, i =>
    match env i with
    | some emb => ⟨i, c, emb⟩ :: embedChunksLoop env rest (i + 1)
    | none => embedChunksLoop env rest (i + 1)

/-- The part of `generateChunkedEmbeddings` that follows the call to
`chunkText`: run the per-chunk loop and throw when no chunk produced an
embedding. -/
def generateChunkedEmbeddingsFromChunks (env : Nat → Option (List ℚ))
    (chunks : List (List Char)) : Except (List Char) (List ChunkRecord) :=
  let results := embedChunksLoop env chunks 0
  if results.length = 0 then
    Except.error "Failed to generate any embeddings for chunks".data
  else Except.ok results

/-- The full `generateChunkedEmbeddings`: fails immediately without an API key,
otherwise splits the text with `chunkText` (fuelled; `none` when that loop
diverges) and runs the per-chunk loop. -/
def generateChunkedEmbeddings (hasApiKey : Bool) (env : Nat → Option (List ℚ))
    (fuel : Nat) (text : List Char) : Option (Except (List Char) (List ChunkRecord)) :=
  if hasApiKey = false then
    some (Except.error "OPENAI_API_KEY not set - cannot generate embeddings".data)
  else
    match chunkTextFuel fuel text 6000 500 with
    | none => none
    | some chunks => some (generateChunkedEmbeddingsFromChunks env chunks)

theorem embedChunksLoop_eq_enum (env : Nat → Option (List ℚ)) :
    ∀ (chunks : List (List Char)) (i : Nat),
      embedChunksLoop env chunks i =
        (List.enumFrom i chunks).filterMap fun p => (env p.1).map fun e => ⟨p.1, p.2, e⟩ := by
  intro chunks
  induction chunks with
  | nil => intro i; simp [embedChunksLoop]
  | cons c rest ih =>
    intro i
    simp only [embedChunksLoop, List.enumFrom, List.filterMap_cons]
    cases he : env i with
    | some emb => simp [he, ih]
    | none => simp [he, ih]

theorem embedChunksLoop_eq_nil_iff (env : Nat → Option (List ℚ)) :
    ∀ (chunks : List (List Char)) (i : Nat),
      embedChunksLoop env chunks i = [] ↔ ∀ j < chunks.length, env (i + j) = none := by
  intro chunks
  induction chunks with
  | nil => intro i; simp [embedChunksLoop]
  | cons c rest ih =>
    intro i
    simp only [embedChunksLoop]
    cases he : env i with
    | some emb =>
      constructor
      · intro h; exact absurd h (by simp)
      · intro h
        have := h 0 (by simp)
        simp [he] at this
    | none =>
      rw [ih (i + 1)]
      constructor
      · intro h j hj
        match j with
        | 0 => simpa using he
        | j + 1 =>
          have := h j (by simpa using Nat.lt_of_succ_lt_succ hj)
          simpa [Nat.add_assoc, Nat.add_comm 1 j] using this
      · intro h j hj
        have := h (j + 1) (by simpa using Nat.succ_lt_succ hj)
        simpa [Nat.add_assoc, Nat.add_comm 1 j] using this

/-- C3: `generateChunkedEmbeddings` requests embeddings chunk-by-chunk, skips
any chunk whose call fails while keeping the others (in particular, success on
chunks 0 and 1 and failure on chunk 2 of a 3-chunk batch yields a 2-element
result rather than an exception), and throws the explicit
"no embeddings produced" error exactly when every chunk of the batch fails. -/
theorem generateChunkedEmbeddings_per_chunk_failure_policy
    (env : Nat → Option (List ℚ)) (chunks : List (List Char)) :
    (generateChunkedEmbeddingsFromChunks env chunks =
        Except.error "Failed to generate any embeddings for chunks".data
      ↔ ∀ i < chunks.length, env i = none)
    ∧ ((∃ i, i < chunks.length ∧ (env i).isSome) →
        generateChunkedEmbeddingsFromChunks env chunks =
          Except.ok (chunks.enum.filterMap fun p => (env p.1).map fun e => ⟨p.1, p.2, e⟩))
    ∧ generateChunkedEmbeddingsFromChunks
        (fun i => if i ≤ 1 then some [(1 : ℚ)] else none) [['a'], ['b'], ['c']] =
        Except.ok [⟨0, ['a'], [(1 : ℚ)]⟩, ⟨1, ['b'], [(1 : ℚ)]⟩] := by
  refine ⟨?_, ?_, by rfl⟩
  · simp only [generateChunkedEmbeddingsFromChunks]
    by_cases h : embedChunksLoop env chunks 0 = []
    · rw [h]
      simp only [List.length_nil, if_pos rfl]
      have hiff := (embedChunksLoop_eq_nil_iff env chunks 0).mp h
      constructor
      · intro _ i hi; simpa using hiff i hi
      · intro _; rfl
    · have hlen : ¬ ((embedChunksLoop env chunks 0).length = 0) := by
        simpa [List.length_eq_zero] using h
      rw [if_neg hlen]
      constructor
      · intro hcontra; exact absurd hcontra (by simp)
      · intro hall
        exact absurd ((embedChunksLoop_eq_nil_iff env chunks 0).mpr
          (by intro j hj; simpa using hall j hj)) h
  · intro ⟨i, hi, hsome⟩
    simp only [generateChunkedEmbeddingsFromChunks]
    have hne : embedChunksLoop env chunks 0 ≠ [] := by
      intro h
      have := (embedChunksLoop_eq_nil_iff env chunks 0).mp h i hi
      simp only [Nat.zero_add] at this
      rw [this] at hsome
      simp at hsome
    have hlen : ¬ ((embedChunksLoop env chunks 0).length = 0) := by
      simpa [List.length_eq_zero] using hne
    rw [if_neg hlen, embedChunksLoop_eq_enum]
    rfl

/-- Witness for `generateChunkedEmbeddings_per_chunk_failure_policy`: the
skip-and-keep conjunct applied at the 3-chunk scenario with a failure on the
final chunk. -/
theorem generateChunkedEmbeddings_policy_witness :
    generateChunkedEmbeddingsFromChunks
        (fun i => if i ≤ 1 then some [(1 : ℚ)] else none) [['x'], ['y'], ['z']] =
      Except.ok ([['x'], ['y'], ['z']].enum.filterMap fun p =>
        ((fun i => if i ≤ 1 then some [(1 : ℚ)] else none) p.1).map fun e => ⟨p.1, p.2, e⟩) :=
  (generateChunkedEmbeddings_per_chunk_failure_policy
    (fun i => if i ≤ 1 then some [(1 : ℚ)] else none) [['x'], ['y'], ['z']]).2.1
    ⟨0, by norm_num, by decide⟩

/-! ### Processing state machine (src background-embeddings module)

The Supabase store is modelled by an explicit state: the `chunks_status` column
of the `files` table and the rows of the `file_chunks` table.  Supabase update
and insert calls return their errors in-band (the source never inspects them),
so in this model they always succeed; the only call that can throw inside
`processInlineIfSmall` is `generateChunkedEmbeddings`, and a `none` result
propagates the non-termination of `chunkText`. -/

inductive ChunkStatus where
  | pending
  | processing
  | complete
  | failed
deriving DecidableEq

/-- One row of the `file_chunks` table. -/
structure FileChunkRow where
  file_id : List Char
  chunk_index : Nat
  chunk_text : List Char
  embedding : List ℚ
deriving DecidableEq

/-- The store state visible to the processing tiers. -/
structure VaultDB where
  chunksStatus : List Char → ChunkStatus
  fileChunks : List FileChunkRow

/-- The update `files.update(\x7b chunks_status \x7d).eq(id, fileId)`. -/
def setStatus (db : VaultDB) (fileId : List Char) (s : ChunkStatus) : VaultDB :=
  { db with chunksStatus := fun i => if i = fileId then s else db.chunksStatus i }

/-- The insert `file_chunks.insert(rows)`. -/
def insertFileChunks (db : VaultDB) (rows : List FileChunkRow) : VaultDB :=
  { db with fileChunks := db.fileChunks ++ rows }

/-- The value returned by `processInlineIfSmall`. -/
structure ProcessResult where
  processed : Bool
  chunks_status : ChunkStatus
deriving DecidableEq

/-- Files with at most this many estimated chunks are processed inline. -/
def SYNC_THRESHOLD : Nat := 5

/-- Level 2 inline processing (`processInlineIfSmall`): estimate the chunk
count as `ceil(length / 6000)`; small files are marked `processing`, chunked and
embedded, their chunk rows inserted with `chunk_index` equal to the position in
the inserted batch, and marked `complete`; a thrown embedding error is caught
and ends with the status reset to `pending` and the soft result
`(processed := false, chunks_status := pending)`.  Large files are left
untouched. -/
def processInlineIfSmall (hasApiKey : Bool) (env : Nat → Option (List ℚ)) (fuel : Nat)
    (fileId text : List Char) (db : VaultDB) : Option (VaultDB × ProcessResult) :=
  let estimatedChunks := (text.length + 5999) / 6000
  if estimatedChunks ≤ SYNC_THRESHOLD then
    let db1 := setStatus db fileId ChunkStatus.processing
    match generateChunkedEmbeddings hasApiKey env fuel text with
    | none => none
    | some (Except.error _) =>
      some (setStatus db1 fileId ChunkStatus.pending,
        ⟨false, ChunkStatus.pending⟩)
    | some (Except.ok chunks) =>
      let rows := chunks.enum.map fun p =>
        FileChunkRow.mk fileId p.1 p.2.chunk_text p.2.embedding
      some (setStatus (insertFileChunks db1 rows) fileId ChunkStatus.complete,
        ⟨true, ChunkStatus.complete⟩)
  else some (db, ⟨false, ChunkStatus.pending⟩)

/-- One row of the `files` table as selected by the startup processor. -/
structure FileRow where
  id : List Char
  path : List Char
  body : List Char
  chunks_status : ChunkStatus
  created_at : Int
deriving DecidableEq

/-- The staleness window used by the startup processor, in milliseconds. -/
def fiveMinutesMs : Int := 5 * 60 * 1000

/-- The row filter of the startup query:
`in(chunks_status, [pending, failed])` and `lt(created_at, now - 5 minutes)`. -/
def isStuck (now : Int) (f : FileRow) : Bool :=
  (f.chunks_status == ChunkStatus.pending || f.chunks_status == ChunkStatus.failed) &&
    decide (f.created_at < now - fiveMinutesMs)

/-- The startup query over the `files` table: the stuck rows, limited to 10. -/
def stuckQuery (files : List FileRow) (now : Int) : List FileRow :=
  (files.filter (isStuck now)).take 10

/-- The `for` loop of the startup processor: run Level 2 processing on each
selected file in order, collecting the ids of the files processed. -/
def processStuck (hasApiKey : Bool) (envOf : List Char → Nat → Option (List ℚ)) (fuel : Nat) :
    List FileRow → VaultDB → Option (VaultDB × List (List Char))
  | [], db => some (db, [])
  | f :: rest, db =>
    match processInlineIfSmall hasApiKey (envOf f.id) fuel f.id f.body db with
    | none => none
    | some (db', _) =>
      match processStuck hasApiKey envOf fuel rest db' with
      | none => none
      | some (db'', ids) => some (db'', f.id :: ids)

/-- Level 4 startup processor (`startupProcessor`): select the stuck
pending/failed files older than five minutes, at most 10 of them, and re-run the
Level 2 routine on each. -/
def startupProcessor (hasApiKey : Bool) (envOf : List Char → Nat → Option (List ℚ))
    (fuel : Nat) (files : List FileRow) (db : VaultDB) (now : Int) :
    Option (VaultDB × List (List Char)) :=
  let pendingFiles := stuckQuery files now
  if pendingFiles.isEmpty then some (db, [])
  else processStuck hasApiKey envOf fuel pendingFiles db

theorem processStuck_ids (hasApiKey : Bool) (envOf : List Char → Nat → Option (List ℚ))
    (fuel : Nat) :
    ∀ (l : List FileRow) (db : VaultDB) (db' : VaultDB) (ids : List (List Char)),
      processStuck hasApiKey envOf fuel l db = some (db', ids) →
      ids = l.map (fun f => f.id) := by
  intro l
  induction l with
  | nil =>
    intro db db' ids h
    simp only [processStuck, Option.some.injEq, Prod.mk.injEq] at h
    simp [← h.2]
  | cons f rest ih =>
    intro db db' ids h
    simp only [processStuck] at h
    cases h1 : processInlineIfSmall hasApiKey (envOf f.id) fuel f.id f.body db with
    | none => rw [h1] at h; exact absurd h (by simp)
    | some p =>
      obtain ⟨pdb, pres⟩ := p
      rw [h1] at h
      dsimp only at h
      cases h2 : processStuck hasApiKey envOf fuel rest pdb with
      | none => rw [h2] at h; exact absurd h (by simp)
      | some q =>
        obtain ⟨qdb, qids⟩ := q
        rw [h2] at h
        dsimp only at h
        simp only [Option.some.injEq, Prod.mk.injEq] at h
        rw [List.map_cons, ← ih pdb qdb qids (by rw [h2]), ← h.2]

/-- C6: each run of the startup processor re-processes, via the Level 2
routine, exactly the files selected by the stuck query — only files whose
status is `pending` or `failed` and whose `created_at` is older than the
5-minute staleness window — and at most 10 of them; in particular a file
younger than the window is never re-processed. -/
theorem startupProcessor_policy (hasApiKey : Bool)
    (envOf : List Char → Nat → Option (List ℚ)) (fuel : Nat) (files : List FileRow)
    (db : VaultDB) (now : Int) (db' : VaultDB) (ids : List (List Char))
    (h : startupProcessor hasApiKey envOf fuel files db now = some (db', ids)) :
    ids = (stuckQuery files now).map (fun f => f.id)
    ∧ ids.length ≤ 10
    ∧ ∀ f ∈ stuckQuery files now,
        (f.chunks_status = ChunkStatus.pending ∨ f.chunks_status = ChunkStatus.failed)
        ∧ f.created_at < now - 5 * 60 * 1000 := by
  have hids : ids = (stuckQuery files now).map (fun f => f.id) := by
    unfold startupProcessor at h
    by_cases he : (stuckQuery files now).isEmpty
    · rw [if_pos he] at h
      simp only [Option.some.injEq, Prod.mk.injEq] at h
      rw [List.isEmpty_iff] at he
      simp [he, ← h.2]
    · rw [if_neg he] at h
      exact processStuck_ids hasApiKey envOf fuel _ db db' ids h
  refine ⟨hids, ?_, ?_⟩
  · rw [hids, List.length_map]
    exact le_trans (List.length_take_le 10 _) (le_refl 10)
  · intro f hf
    have hmem : f ∈ files.filter (isStuck now) := List.mem_of_mem_take hf
    have hstuck := List.of_mem_filter hmem
    unfold isStuck fiveMinutesMs at hstuck
    simp only [Bool.and_eq_true, Bool.or_eq_true, beq_iff_eq, decide_eq_true_eq] at hstuck
    exact ⟨hstuck.1, by omega⟩

/-- A concrete stuck file and store used to witness the startup-processor
policy. -/
def fileW : FileRow := ⟨['f'], ['p'], ['a'], ChunkStatus.pending, 0⟩

/-- An initial store with every status `pending` and no chunk rows. -/
def dbW : VaultDB := ⟨fun _ => ChunkStatus.pending, []⟩

/-- Witness for `startupProcessor_policy`: one stuck pending file, processed
with the embedding backend unavailable. -/
theorem startupProcessor_policy_witness :
    ∃ p : VaultDB × List (List Char),
      startupProcessor false (fun _ _ => none) 0 [fileW] dbW 600000 = some p ∧
        p.2 = (stuckQuery [fileW] 600000).map (fun f => f.id) ∧ p.2.length ≤ 10 := by
  refine ⟨(startupProcessor false (fun _ _ => none) 0 [fileW] dbW 600000).getD (dbW, []),
    ?_, ?_⟩
  · rfl
  · have h := startupProcessor_policy false (fun _ _ => none) 0 [fileW] dbW 600000
      ((startupProcessor false (fun _ _ => none) 0 [fileW] dbW 600000).getD (dbW, [])).1
      ((startupProcessor false (fun _ _ => none) 0 [fileW] dbW 600000).getD (dbW, [])).2
      (by rfl)
    exact ⟨h.1, h.2.1⟩

/-- C5: when the generation of chunked embeddings throws inside the inline
(Level 2) path, `processInlineIfSmall` catches the exception, resets the
document status to `pending`, and returns the soft result
`(processed := false, chunks_status := pending)` instead of propagating; and no
outcome of the inline path ever sets the status to `failed` or reports a
`failed` status.  (Supabase status updates and chunk inserts return their
errors in-band and never throw, so the embedding call is the only possible
exception source in this path.) -/
theorem processInlineIfSmall_soft_failure (hasApiKey : Bool)
    (env : Nat → Option (List ℚ)) (fuel : Nat) (fileId text : List Char) (db : VaultDB) :
    (∀ e, generateChunkedEmbeddings hasApiKey env fuel text = some (Except.error e) →
      (text.length + 5999) / 6000 ≤ SYNC_THRESHOLD →
      processInlineIfSmall hasApiKey env fuel fileId text db =
        some (setStatus (setStatus db fileId ChunkStatus.processing) fileId ChunkStatus.pending,
          ⟨false, ChunkStatus.pending⟩) ∧
      (setStatus (setStatus db fileId ChunkStatus.processing) fileId
          ChunkStatus.pending).chunksStatus fileId = ChunkStatus.pending)
    ∧ (∀ db' r, processInlineIfSmall hasApiKey env fuel fileId text db = some (db', r) →
        r.chunks_status ≠ ChunkStatus.failed ∧
        ((text.length + 5999) / 6000 ≤ SYNC_THRESHOLD →
          db'.chunksStatus fileId ≠ ChunkStatus.failed)) := by
  constructor
  · intro e he hsmall
    constructor
    · simp only [processInlineIfSmall, if_pos hsmall, he]
    · simp [setStatus]
  · intro db' r h
    simp only [processInlineIfSmall] at h
    by_cases hsmall : (text.length + 5999) / 6000 ≤ SYNC_THRESHOLD
    · rw [if_pos hsmall] at h
      cases hg : generateChunkedEmbeddings hasApiKey env fuel text with
      | none => rw [hg] at h; exact absurd h (by simp)
      | some res =>
        rw [hg] at h
        cases res with
        | error e =>
          simp only [Option.some.injEq, Prod.mk.injEq] at h
          refine ⟨by rw [← h.2]; simp, fun _ => ?_⟩
          rw [← h.1]
          simp [setStatus]
        | ok chunks =>
          simp only [Option.some.injEq, Prod.mk.injEq] at h
          refine ⟨by rw [← h.2]; simp, fun _ => ?_⟩
          rw [← h.1]
          simp [setStatus]
    · rw [if_neg hsmall] at h
      simp only [Option.some.injEq, Prod.mk.injEq] at h
      exact ⟨by rw [← h.2]; simp, fun hc => absurd hc hsmall⟩

/-- Witness for `processInlineIfSmall_soft_failure`: with no API key the
embedding call throws at once, and a small file ends back in `pending` with the
soft result. -/
theorem processInlineIfSmall_soft_failure_witness :
    processInlineIfSmall false (fun _ => none) 0 ['f'] ['a'] dbW =
      some (setStatus (setStatus dbW ['f'] ChunkStatus.processing) ['f'] ChunkStatus.pending,
        ⟨false, ChunkStatus.pending⟩) :=
  ((processInlineIfSmall_soft_failure false (fun _ => none) 0 ['f'] ['a'] dbW).1
    "OPENAI_API_KEY not set - cannot generate embeddings".data (by rfl) (by decide)).1

/-- C8: every chunk batch inserted by a successful run of the inline path
carries `chunk_index` values that are exactly `0, ..., N-1` for its `N`
inserted rows — no two rows share an index — even when the embedding step
skipped some chunks of the original split, because the insert re-indexes the
batch by position. -/
theorem processInlineIfSmall_contiguous_indices (hasApiKey : Bool)
    (env : Nat → Option (List ℚ)) (fuel : Nat) (fileId text : List Char) (db : VaultDB) :
    ∀ p ∈ processInlineIfSmall hasApiKey env fuel fileId text db,
      p.2.processed = true →
      ∃ rows, p.1.fileChunks = db.fileChunks ++ rows ∧
        rows.map (fun r => r.chunk_index) = List.range rows.length ∧
        (rows.map (fun r => r.chunk_index)).Nodup ∧
        ∀ r ∈ rows, r.file_id = fileId := by
  intro p hp hproc
  rw [Option.mem_def] at hp
  simp only [processInlineIfSmall] at hp
  by_cases hsmall : (text.length + 5999) / 6000 ≤ SYNC_THRESHOLD
  · rw [if_pos hsmall] at hp
    cases hg : generateChunkedEmbeddings hasApiKey env fuel text with
    | none => rw [hg] at hp; exact absurd hp (by simp)
    | some res =>
      rw [hg] at hp
      cases res with
      | error e =>
        simp only [Option.some.injEq] at hp
        rw [← hp] at hproc
        simp at hproc
      | ok chunks =>
        simp only [Option.some.injEq] at hp
        refine ⟨chunks.enum.map fun q =>
          FileChunkRow.mk fileId q.1 q.2.chunk_text q.2.embedding, ?_, ?_, ?_, ?_⟩
        · rw [← hp]
          simp [setStatus, insertFileChunks]
        · rw [List.map_map, List.length_map]
          have : ((fun r : FileChunkRow => r.chunk_index) ∘ fun q : Nat × ChunkRecord =>
              FileChunkRow.mk fileId q.1 q.2.chunk_text q.2.embedding) = Prod.fst := by
            funext q; rfl
          rw [this, List.enum_map_fst, List.enum_length]
        · rw [List.map_map]
          have : ((fun r : FileChunkRow => r.chunk_index) ∘ fun q : Nat × ChunkRecord =>
              FileChunkRow.mk fileId q.1 q.2.chunk_text q.2.embedding) = Prod.fst := by
            funext q; rfl
          rw [this, List.enum_map_fst]
          exact List.nodup_range _
        · intro r hr
          rw [List.mem_map] at hr
          obtain ⟨q, _, hq⟩ := hr
          rw [← hq]
  · rw [if_neg hsmall] at hp
    simp only [Option.some.injEq] at hp
    rw [← hp] at hproc
    simp at hproc

/-- Witness for `processInlineIfSmall_contiguous_indices`: a one-chunk file
processed successfully. -/
theorem processInlineIfSmall_contiguous_indices_witness :
    ∃ rows, ((processInlineIfSmall true (fun _ => some [(1 : ℚ)]) 1 ['f'] ['a'] dbW).getD
        (dbW, ⟨false, ChunkStatus.pending⟩)).1.fileChunks = dbW.fileChunks ++ rows ∧
      rows.map (fun r => r.chunk_index) = List.range rows.length ∧
      (rows.map (fun r => r.chunk_index)).Nodup ∧
      ∀ r ∈ rows, r.file_id = ['f'] :=
  processInlineIfSmall_contiguous_indices true (fun _ => some [(1 : ℚ)]) 1 ['f'] ['a'] dbW
    ((processInlineIfSmall true (fun _ => some [(1 : ℚ)]) 1 ['f'] ['a'] dbW).getD
      (dbW, ⟨false, ChunkStatus.pending⟩)) (by rfl) (by rfl)

/-! ### Reciprocal Rank Fusion (`searchTools`, src/tools/tool-search.ts)

The BM25 library and the similarity-sorted embedding results are external
inputs; they enter the fusion step only as ranked lists of registry indices
(rank 0 first).  The `scores` map accumulation of `searchTools` is embedded as
a function update over both lists. -/

/-- The RRF contribution `1 / (k + rank + 1)` of one rank position. -/
def rrfScore (k rank : Nat) : ℚ := 1 / ((k : ℚ) + (rank : ℚ) + 1)

/-- One `forEach` pass of `searchTools`: add `1 / (k + rank + 1)` to the score
of the item at each rank of `ranking`. -/
def rrfAdd (k : Nat) (ranking : List Nat) (scores : Nat → ℚ) : Nat → ℚ :=
  ranking.enum.foldl
    (fun sc p => fun j => if j = p.2 then sc j + rrfScore k p.1 else sc j) scores

/-- The fused score map of `searchTools` (keyword pass, then semantic pass),
with the RRF constant `k`. -/
def searchToolsRRFScores (k : Nat) (bm emb : List Nat) : Nat → ℚ :=
  rrfAdd k emb (rrfAdd k bm (fun _ => 0))

/-- Total RRF mass an item `i` receives from the ranks `n, n+1, ...` of a
ranking. -/
def rrfSumFrom (k n : Nat) (ranking : List Nat) (i : Nat) : ℚ :=
  (((List.enumFrom n ranking).filter (fun p => p.2 == i)).map (fun p => rrfScore k p.1)).sum

theorem rrfScore_pos (k rank : Nat) : 0 < rrfScore k rank := by
  unfold rrfScore
  positivity

theorem rrfAdd_foldl_enumFrom (k : Nat) :
    ∀ (l : List Nat) (n : Nat) (sc : Nat → ℚ) (i : Nat),
      (List.enumFrom n l).foldl
          (fun sc p => fun j => if j = p.2 then sc j + rrfScore k p.1 else sc j) sc i =
        sc i + rrfSumFrom k n l i := by
  intro l
  induction l with
  | nil => intro n sc i; simp [rrfSumFrom]
  | cons a t ih =>
    intro n sc i
    simp only [List.enumFrom, List.foldl_cons]
    rw [ih]
    unfold rrfSumFrom
    simp only [List.enumFrom, List.filter_cons]
    by_cases hai : a = i
    · subst hai
      simp only [beq_self_eq_true, if_true, List.map_cons, List.sum_cons, if_pos rfl]
      ring
    · have hne : ((n, a).2 == i) = false := by simpa using hai
      rw [hne]
      simp only [Bool.false_eq_true, if_false]
      rw [if_neg (fun h => hai h.symm)]

theorem rrfAdd_apply (k : Nat) (r : List Nat) (sc : Nat → ℚ) (i : Nat) :
    rrfAdd k r sc i = sc i + rrfSumFrom k 0 r i := by
  unfold rrfAdd
  have := rrfAdd_foldl_enumFrom k r 0 sc i
  simpa [List.enum] using this

theorem rrfSumFrom_nonneg (k : Nat) :
    ∀ (l : List Nat) (n : Nat) (i : Nat), 0 ≤ rrfSumFrom k n l i := by
  intro l
  induction l with
  | nil => intro n i; simp [rrfSumFrom]
  | cons a t ih =>
    intro n i
    unfold rrfSumFrom
    simp only [List.enumFrom, List.filter_cons]
    by_cases hai : ((n, a).2 == i) = true
    · simp only [hai, if_pos, List.map_cons, List.sum_cons]
      have h1 := rrfScore_pos k n
      have h2 := ih (n + 1) i
      unfold rrfSumFrom at h2
      linarith
    · simp only [hai, if_neg, if_false]
      have h2 := ih (n + 1) i
      unfold rrfSumFrom at h2
      exact h2

theorem rrfSumFrom_pos (k : Nat) :
    ∀ (l : List Nat) (n : Nat) (i : Nat), i ∈ l → 0 < rrfSumFrom k n l i := by
  intro l
  induction l with
  | nil => intro n i h; simp at h
  | cons a t ih =>
    intro n i h
    unfold rrfSumFrom
    simp only [List.enumFrom, List.filter_cons]
    by_cases hai : ((n, a).2 == i) = true
    · simp only [hai, if_pos, List.map_cons, List.sum_cons]
      have h1 := rrfScore_pos k n
      have h2 := rrfSumFrom_nonneg k t (n + 1) i
      unfold rrfSumFrom at h2
      linarith
    · simp only [hai, if_neg, if_false]
      have hat : i ∈ t := by
        rcases List.mem_cons.mp h with h' | h'
        · exact absurd (by simpa using h'.symm) hai
        · exact h'
      have h2 := ih (n + 1) i hat
      unfold rrfSumFrom at h2
      exact h2

theorem rrfSumFrom_eq_zero (k : Nat) :
    ∀ (l : List Nat) (n : Nat) (i : Nat), i ∉ l → rrfSumFrom k n l i = 0 := by
  intro l
  induction l with
  | nil => intro n i _; simp [rrfSumFrom]
  | cons a t ih =>
    intro n i h
    unfold rrfSumFrom
    simp only [List.enumFrom, List.filter_cons]
    have hai : ¬ ((n, a).2 == i) = true := by
      simp only [beq_iff_eq]
      intro hc
      exact h (by simp [hc])
    simp only [hai, if_neg, if_false]
    have := ih (n + 1) i (fun hc => h (List.mem_cons_of_mem a hc))
    unfold rrfSumFrom at this
    exact this

/-- C7: under the fusion rule of `searchTools` (`score = sum of
1 / (k + rank + 1)` with `k = 60` over the lists an item appears in), an item
present in both the keyword ranking and the semantic ranking scores strictly
higher than the same item at the same ranks with either one of its two list
appearances removed. -/
theorem searchTools_rrf_consensus (bm emb : List Nat) (i : Nat)
    (h1 : i ∈ bm) (h2 : i ∈ emb) :
    searchToolsRRFScores 60 bm (emb.filter (fun j => !(j == i))) i
        < searchToolsRRFScores 60 bm emb i
    ∧ searchToolsRRFScores 60 (bm.filter (fun j => !(j == i))) emb i
        < searchToolsRRFScores 60 bm emb i := by
  have hnotmem : ∀ l : List Nat, i ∉ l.filter (fun j => !(j == i)) := by
    intro l hc
    have := List.of_mem_filter hc
    simp at this
  have hfull : searchToolsRRFScores 60 bm emb i =
      rrfSumFrom 60 0 bm i + rrfSumFrom 60 0 emb i := by
    unfold searchToolsRRFScores
    rw [rrfAdd_apply, rrfAdd_apply]
    ring
  constructor
  · have h : searchToolsRRFScores 60 bm (emb.filter (fun j => !(j == i))) i =
        rrfSumFrom 60 0 bm i := by
      unfold searchToolsRRFScores
      rw [rrfAdd_apply, rrfAdd_apply,
        rrfSumFrom_eq_zero 60 _ 0 i (hnotmem emb)]
      ring
    rw [h, hfull]
    have := rrfSumFrom_pos 60 emb 0 i h2
    linarith
  · have h : searchToolsRRFScores 60 (bm.filter (fun j => !(j == i))) emb i =
        rrfSumFrom 60 0 emb i := by
      unfold searchToolsRRFScores
      rw [rrfAdd_apply, rrfAdd_apply,
        rrfSumFrom_eq_zero 60 _ 0 i (hnotmem bm)]
      ring
    rw [h, hfull]
    have := rrfSumFrom_pos 60 bm 0 i h1
    linarith

/-- Witness for `searchTools_rrf_consensus`: the item at rank 0 of both lists
beats the same item ranked only by the keyword list. -/
theorem searchTools_rrf_consensus_witness :
    searchToolsRRFScores 60 [0] (List.filter (fun j => !(j == 0)) [0]) 0
      < searchToolsRRFScores 60 [0] [0] 0 :=
  (searchTools_rrf_consensus [0] [0] 0 (by simp) (by simp)).1

/-! ### Cosine similarity (three in-process copies)

`Math.sqrt` operates on floating-point numbers; it is modelled by an abstract
function `sqrtFn : ℚ → ℚ` about which the theorems assume only what every
square-root implementation satisfies (`sqrtFn 0 = 0` and positivity on positive
inputs).  The division of the read-tool variant is partial: `none` models the
JavaScript `NaN` produced by `0 / 0` when a zero-norm vector is supplied. -/

/-- Shared accumulation loop of every `cosineSimilarity` copy: dot product and
the two squared norms (for equal-length vectors, as in every call site and in
the claims). -/
def dotNorms (a b : List ℚ) : ℚ × ℚ × ℚ :=
  (List.zip a b).foldl
    (fun acc p => (acc.1 + p.1 * p.2, acc.2.1 + p.1 * p.1, acc.2.2 + p.2 * p.2))
    (0, 0, 0)

/-- The `cosineSimilarity` of src/tools/read.ts and of the read tool with chunk
sampling: `dotProduct / (Math.sqrt(normA) * Math.sqrt(normB))` with no
zero-norm guard. -/
def cosineSimilarityRead (sqrtFn : ℚ → ℚ) (a b : List ℚ) : Option ℚ :=
  let d := dotNorms a b
  let denom := sqrtFn d.2.1 * sqrtFn d.2.2
  if denom = 0 then none else some (d.1 / denom)

/-- The `cosineSimilarity` of src/tools/tool-search.ts: length check, then
`return 0` when either magnitude is zero. -/
def cosineSimilarityToolSearch (sqrtFn : ℚ → ℚ) (a b : List ℚ) : Except (List Char) ℚ :=
  if a.length ≠ b.length then Except.error "Vectors must have the same length".data
  else
    let d := dotNorms a b
    let magnitudeA := sqrtFn d.2.1
    let magnitudeB := sqrtFn d.2.2
    if magnitudeA = 0 ∨ magnitudeB = 0 then Except.ok 0
    else Except.ok (d.1 / (magnitudeA * magnitudeB))

theorem dotNorms_nonneg (a b : List ℚ) :
    0 ≤ (dotNorms a b).2.1 ∧ 0 ≤ (dotNorms a b).2.2 := by
  unfold dotNorms
  have : ∀ (l : List (ℚ × ℚ)) (acc : ℚ × ℚ × ℚ), 0 ≤ acc.2.1 → 0 ≤ acc.2.2 →
      0 ≤ (l.foldl (fun acc p =>
        (acc.1 + p.1 * p.2, acc.2.1 + p.1 * p.1, acc.2.2 + p.2 * p.2)) acc).2.1 ∧
      0 ≤ (l.foldl (fun acc p =>
        (acc.1 + p.1 * p.2, acc.2.1 + p.1 * p.1, acc.2.2 + p.2 * p.2)) acc).2.2 := by
    intro l
    induction l with
    | nil => intro acc h1 h2; exact ⟨h1, h2⟩
    | cons p t ih =>
      intro acc h1 h2
      simp only [List.foldl_cons]
      exact ih _ (add_nonneg h1 (mul_self_nonneg p.1)) (add_nonneg h2 (mul_self_nonneg p.2))
  exact this _ _ (le_refl 0) (le_refl 0)

/-- C9 counterexample: the claim says every in-process cosine-similarity
computation returns 0 on a zero-norm vector, but the read-tool copy has no
guard and produces `NaN` (`0 / 0`, modelled as `none`) on the zero vector
(taking the identity for the square root, which agrees with `Math.sqrt` on the
only consulted input, 0). -/
theorem cosineSimilarityRead_zero_norm_counterexample :
    cosineSimilarityRead id [(0 : ℚ)] [(0 : ℚ)] = none ∧
      cosineSimilarityRead id [(0 : ℚ)] [(0 : ℚ)] ≠ some 0 := by
  have h : cosineSimilarityRead id [(0 : ℚ)] [(0 : ℚ)] = none := by
    simp [cosineSimilarityRead, dotNorms]
  refine ⟨h, ?_⟩
  rw [h]
  exact fun hc => Option.noConfusion hc

/-- C9 (amended): the tool-search `cosineSimilarity` equals
`dot(a,b) / (sqrt(normA) * sqrt(normB))` with the guard returning 0 whenever
either squared norm is zero, never dividing by zero; the unguarded read-tool
copy instead produces no value (`NaN`) on exactly those inputs. -/
theorem cosineSimilarity_guard (sqrtFn : ℚ → ℚ) (h0 : sqrtFn 0 = 0)
    (hpos : ∀ x : ℚ, 0 < x → 0 < sqrtFn x) (a b : List ℚ) (hlen : a.length = b.length) :
    (cosineSimilarityToolSearch sqrtFn a b =
        Except.ok (if (dotNorms a b).2.1 = 0 ∨ (dotNorms a b).2.2 = 0 then 0
          else (dotNorms a b).1 / (sqrtFn (dotNorms a b).2.1 * sqrtFn (dotNorms a b).2.2)))
    ∧ ((dotNorms a b).2.1 = 0 ∨ (dotNorms a b).2.2 = 0 →
        cosineSimilarityToolSearch sqrtFn a b = Except.ok 0
        ∧ cosineSimilarityRead sqrtFn a b = none) := by
  have hmag : (sqrtFn (dotNorms a b).2.1 = 0 ∨ sqrtFn (dotNorms a b).2.2 = 0) ↔
      ((dotNorms a b).2.1 = 0 ∨ (dotNorms a b).2.2 = 0) := by
    obtain ⟨hA, hB⟩ := dotNorms_nonneg a b
    constructor
    · intro h
      rcases h with h | h
      · left
        by_contra hc
        have hx : 0 < (dotNorms a b).2.1 := lt_of_le_of_ne hA (Ne.symm hc)
        have := hpos _ hx
        linarith
      · right
        by_contra hc
        have hx : 0 < (dotNorms a b).2.2 := lt_of_le_of_ne hB (Ne.symm hc)
        have := hpos _ hx
        linarith
    · intro h
      rcases h with h | h
      · left; rw [h, h0]
      · right; rw [h, h0]
  constructor
  · unfold cosineSimilarityToolSearch
    rw [if_neg (by simp [hlen])]
    by_cases hz : (dotNorms a b).2.1 = 0 ∨ (dotNorms a b).2.2 = 0
    · rw [if_pos (hmag.mpr hz), if_pos hz]
    · rw [if_neg (fun hc => hz (hmag.mp hc)), if_neg hz]
  · intro hz
    constructor
    · unfold cosineSimilarityToolSearch
      rw [if_neg (by simp [hlen]), if_pos (hmag.mpr hz)]
    · unfold cosineSimilarityRead
      have : sqrtFn (dotNorms a b).2.1 * sqrtFn (dotNorms a b).2.2 = 0 := by
        rcases hmag.mpr hz with h | h
        · rw [h, zero_mul]
        · rw [h, mul_zero]
      rw [if_pos this]

/-- Witness for `cosineSimilarity_guard`: the guarded copy returns 0 and the
unguarded copy returns `NaN` on the zero vector. -/
theorem cosineSimilarity_guard_witness :
    cosineSimilarityToolSearch id [(0 : ℚ)] [(0 : ℚ)] = Except.ok 0 ∧
      cosineSimilarityRead id [(0 : ℚ)] [(0 : ℚ)] = none :=
  (cosineSimilarity_guard id rfl (fun _ hx => hx) [(0 : ℚ)] [(0 : ℚ)] rfl).2
    (Or.inl (by simp [dotNorms]))

/-! ### Context sampler (`searchInChunks` of the chunk-sampling read tool)

The store queries feeding the sampler are environment inputs: the keyword rows
(the source limits that query to `limit` rows), the candidate rows with
non-null embeddings, and the context-chunk fetch
`in(chunk_index, contextIndices)`.  The selection logic — semantic scoring,
merging, anchor chunks, deduplication through a JavaScript `Map`, and the final
ascending sort — is in-process and embedded below.  Chunk rows reuse
`ChunkRecord`. -/

/-- JavaScript sort comparator `(a, b) => b.score - a.score` as a
keep-in-order test for a stable merge sort: `a` stays before `b` unless the
comparator is positive; a `NaN` score (`none`) makes the comparator `NaN`,
which `Array.prototype.sort` treats as 0 (equal). -/
def scoreLe (x y : Option ℚ) : Bool :=
  match x, y with
  | some a, some b => decide (b ≤ a)
  | _, _ => true

/-- The top-match list of `searchInChunks`: the keyword rows, then — when a
query embedding is available — the semantic candidates not already matched,
sorted by descending cosine score, up to `limit - keyword.length` of them. -/
def topMatchesOf (sqrtFn : ℚ → ℚ) (qe : Option (List ℚ)) (limit : Nat)
    (keywordChunks semanticChunks : List ChunkRecord) : List ChunkRecord :=
  match qe with
  | none => keywordChunks
  | some q =>
    let scoredChunks := semanticChunks.map fun c => (c, cosineSimilarityRead sqrtFn q c.embedding)
    let keywordIndices := keywordChunks.map fun r => r.chunk_index
    keywordChunks ++
      (((scoredChunks.filter fun p => decide (p.1.chunk_index ∉ keywordIndices)).mergeSort
          (fun p p' => scoreLe p.2 p'.2)).take (limit - keywordChunks.length)).map (fun p => p.1)

/-- The context-anchor indices of `searchInChunks`: chunk 0, the middle chunk
and the last chunk, each added only when not already matched and only while the
running total stays below `limit` (the last chunk also requires a positive
index). -/
def contextIndicesOf (limit totalChunkCount : Nat) (top : List ChunkRecord) : List Nat :=
  let matchedIndices := top.map fun r => r.chunk_index
  let c1 := if 0 ∉ matchedIndices ∧ top.length < limit then [0] else []
  let middleIdx := totalChunkCount / 2
  let c2 := if middleIdx ∉ matchedIndices ∧ top.length + c1.length < limit
    then c1 ++ [middleIdx] else c1
  let endIdx := totalChunkCount - 1
  if endIdx ∉ matchedIndices ∧ top.length + c2.length < limit ∧ 0 < endIdx
    then c2 ++ [endIdx] else c2

/-- Insertion-order deduplication of a list of naturals (first occurrence
kept), as performed by the keys of a JavaScript `Map`. -/
def natDedup (l : List Nat) : List Nat :=
  l.foldl (fun ks i => if i ∈ ks then ks else ks ++ [i]) []

/-- The key sequence of `new Map(allChunks.map(c => [c.chunk_index, c]))`:
first-occurrence order of the chunk indices. -/
def jsMapKeys (l : List ChunkRecord) : List Nat :=
  natDedup (l.map fun r => r.chunk_index)

/-- The value a JavaScript `Map` holds for a key after all insertions: the last
row with that chunk index. -/
def lastWithIndex (l : List ChunkRecord) (i : Nat) : Option ChunkRecord :=
  (l.filter fun r => r.chunk_index == i).getLast?

/-- Deduplication by `chunk_index` through a JavaScript `Map`. -/
def dedupByIndex (l : List ChunkRecord) : List ChunkRecord :=
  (jsMapKeys l).filterMap (lastWithIndex l)

/-- The chunk-selection pipeline of `searchInChunks`: top matches, context
anchors (fetched only when some anchor was requested), `Map` deduplication and
the final ascending sort by chunk index. -/
def searchInChunksSelect (sqrtFn : ℚ → ℚ) (qe : Option (List ℚ))
    (limit totalChunkCount : Nat) (keywordChunks semanticChunks : List ChunkRecord)
    (fetch : List Nat → List ChunkRecord) : List ChunkRecord :=
  let top := topMatchesOf sqrtFn qe limit keywordChunks semanticChunks
  let contextIndices := contextIndicesOf limit totalChunkCount top
  let contextChunks := if 0 < contextIndices.length then fetch contextIndices else []
  (dedupByIndex (top ++ contextChunks)).mergeSort
    (fun a b => decide (a.chunk_index ≤ b.chunk_index))

/-- What the store guarantees for the context-chunk fetch
`in(chunk_index, indices)` on a file with `totalChunkCount` contiguously
indexed chunks: distinct rows, only requested indices, and every requested
index that exists. -/
def FetchContract (totalChunkCount : Nat) (fetch : List Nat → List ChunkRecord) : Prop :=
  ∀ ctx, (((fetch ctx).map fun r => r.chunk_index).Nodup)
    ∧ (∀ r ∈ fetch ctx, r.chunk_index ∈ ctx)
    ∧ (∀ i ∈ ctx, i < totalChunkCount → ∃ r ∈ fetch ctx, r.chunk_index = i)

/-- A reference store for the fetch: one row per requested existing index. -/
def fetchModel (totalChunkCount : Nat) (ctx : List Nat) : List ChunkRecord :=
  ((natDedup ctx).filter fun i => decide (i < totalChunkCount)).map fun i => ⟨i, [], []⟩

theorem natDedup_foldl_mem :
    ∀ (l : List Nat) (ks : List Nat) (i : Nat),
      (i ∈ l.foldl (fun ks i => if i ∈ ks then ks else ks ++ [i]) ks) ↔ i ∈ ks ∨ i ∈ l := by
  intro l
  induction l with
  | nil => intro ks i; simp
  | cons a t ih =>
    intro ks i
    simp only [List.foldl_cons]
    by_cases ha : a ∈ ks
    · rw [if_pos ha, ih]
      constructor
      · rintro (h | h)
        · exact Or.inl h
        · exact Or.inr (List.mem_cons_of_mem a h)
      · rintro (h | h)
        · exact Or.inl h
        · rcases List.mem_cons.mp h with rfl | h'
          · exact Or.inl ha
          · exact Or.inr h'
    · rw [if_neg ha, ih]
      simp only [List.mem_append, List.mem_singleton, List.mem_cons]
      tauto

theorem mem_natDedup (l : List Nat) (i : Nat) : i ∈ natDedup l ↔ i ∈ l := by
  unfold natDedup
  rw [natDedup_foldl_mem]
  simp

theorem natDedup_foldl_nodup :
    ∀ (l : List Nat) (ks : List Nat), ks.Nodup →
      (l.foldl (fun ks i => if i ∈ ks then ks else ks ++ [i]) ks).Nodup := by
  intro l
  induction l with
  | nil => intro ks h; simpa using h
  | cons a t ih =>
    intro ks h
    simp only [List.foldl_cons]
    by_cases ha : a ∈ ks
    · rw [if_pos ha]; exact ih ks h
    · rw [if_neg ha]
      refine ih _ ?_
      simpa [List.nodup_append] using ⟨h, ha⟩

theorem natDedup_nodup (l : List Nat) : (natDedup l).Nodup :=
  natDedup_foldl_nodup l [] List.nodup_nil

theorem natDedup_foldl_length :
    ∀ (l : List Nat) (ks : List Nat),
      (l.foldl (fun ks i => if i ∈ ks then ks else ks ++ [i]) ks).length ≤
        ks.length + l.length := by
  intro l
  induction l with
  | nil => intro ks; simp
  | cons a t ih =>
    intro ks
    simp only [List.foldl_cons]
    by_cases ha : a ∈ ks
    · rw [if_pos ha]
      have h2 := ih ks
      simp only [List.length_cons]
      omega
    · rw [if_neg ha]
      have h2 := ih (ks ++ [a])
      rw [List.length_append, List.length_singleton] at h2
      simp only [List.length_cons]
      omega

theorem natDedup_length_le (l : List Nat) : (natDedup l).length ≤ l.length := by
  have := natDedup_foldl_length l []
  simpa using this

theorem dedupByIndex_length_le (l : List ChunkRecord) :
    (dedupByIndex l).length ≤ l.length := by
  unfold dedupByIndex jsMapKeys
  calc ((natDedup (l.map fun r => r.chunk_index)).filterMap (lastWithIndex l)).length
      ≤ (natDedup (l.map fun r => r.chunk_index)).length := List.length_filterMap_le _ _
    _ ≤ (l.map fun r => r.chunk_index).length := natDedup_length_le _
    _ = l.length := List.length_map _ _

theorem dedupByIndex_keeps_key (l : List ChunkRecord) (i : Nat)
    (h : i ∈ l.map fun r => r.chunk_index) :
    ∃ r ∈ dedupByIndex l, r.chunk_index = i := by
  have hk : i ∈ jsMapKeys l := by
    unfold jsMapKeys
    exact (mem_natDedup _ i).mpr h
  obtain ⟨r0, hr0, hr0i⟩ := List.mem_map.mp h
  have hfil : r0 ∈ l.filter fun r => r.chunk_index == i :=
    List.mem_filter.mpr ⟨hr0, by simpa using hr0i⟩
  have hne : (l.filter fun r => r.chunk_index == i) ≠ [] :=
    List.ne_nil_of_mem hfil
  obtain ⟨r, hr⟩ := Option.isSome_iff_exists.mp (List.getLast?_isSome.mpr hne)
  have hrmem : r ∈ l.filter fun r => r.chunk_index == i :=
    List.mem_of_getLast?_eq_some hr
  have hri : r.chunk_index = i := by simpa using List.of_mem_filter hrmem
  refine ⟨r, ?_, hri⟩
  unfold dedupByIndex
  exact List.mem_filterMap.mpr ⟨i, hk, hr⟩

theorem topMatchesOf_length_le (sqrtFn : ℚ → ℚ) (qe : Option (List ℚ)) (limit : Nat)
    (keywordChunks semanticChunks : List ChunkRecord)
    (hkw : keywordChunks.length ≤ limit) :
    (topMatchesOf sqrtFn qe limit keywordChunks semanticChunks).length ≤ limit := by
  unfold topMatchesOf
  cases qe with
  | none => exact hkw
  | some q =>
    simp only [List.length_append, List.length_map]
    have := List.length_take_le (limit - keywordChunks.length)
      (((semanticChunks.map fun c => (c, cosineSimilarityRead sqrtFn q c.embedding)).filter
          fun p => decide (p.1.chunk_index ∉ keywordChunks.map fun r => r.chunk_index)).mergeSort
        (fun p p' => scoreLe p.2 p'.2))
    omega

theorem contextIndicesOf_room (limit totalChunkCount : Nat) (top : List ChunkRecord)
    (h : contextIndicesOf limit totalChunkCount top ≠ []) :
    top.length + (contextIndicesOf limit totalChunkCount top).length ≤ limit := by
  simp only [contextIndicesOf] at h ⊢
  by_cases h1 : 0 ∉ List.map (fun r => r.chunk_index) top ∧ top.length < limit
  · rw [if_pos h1] at h ⊢
    by_cases h2 : totalChunkCount / 2 ∉ List.map (fun r => r.chunk_index) top ∧
        top.length + [0].length < limit
    · rw [if_pos h2] at h ⊢
      by_cases h3 : totalChunkCount - 1 ∉ List.map (fun r => r.chunk_index) top ∧
          top.length + ([0] ++ [totalChunkCount / 2]).length < limit ∧
          0 < totalChunkCount - 1
      · rw [if_pos h3]
        have hb := h3.2.1
        simp only [List.length_append, List.length_singleton] at hb ⊢
        omega
      · rw [if_neg h3]
        have hb := h2.2
        simp only [List.length_append, List.length_singleton] at hb ⊢
        omega
    · rw [if_neg h2] at h ⊢
      by_cases h3 : totalChunkCount - 1 ∉ List.map (fun r => r.chunk_index) top ∧
          top.length + [0].length < limit ∧ 0 < totalChunkCount - 1
      · rw [if_pos h3]
        have hb := h3.2.1
        simp only [List.length_append, List.length_singleton] at hb ⊢
        omega
      · rw [if_neg h3]
        have hb := h1.2
        simp only [List.length_singleton]
        omega
  · rw [if_neg h1] at h ⊢
    by_cases h2 : totalChunkCount / 2 ∉ List.map (fun r => r.chunk_index) top ∧
        top.length + ([] : List Nat).length < limit
    · rw [if_pos h2] at h ⊢
      by_cases h3 : totalChunkCount - 1 ∉ List.map (fun r => r.chunk_index) top ∧
          top.length + (([] : List Nat) ++ [totalChunkCount / 2]).length < limit ∧
          0 < totalChunkCount - 1
      · rw [if_pos h3]
        have hb := h3.2.1
        simp only [List.length_append, List.length_singleton, List.length_nil] at hb ⊢
        omega
      · rw [if_neg h3]
        have hb := h2.2
        simp only [List.length_append, List.length_singleton, List.length_nil] at hb ⊢
        omega
    · rw [if_neg h2] at h ⊢
      by_cases h3 : totalChunkCount - 1 ∉ List.map (fun r => r.chunk_index) top ∧
          top.length + ([] : List Nat).length < limit ∧ 0 < totalChunkCount - 1
      · rw [if_pos h3]
        have hb := h3.2.1
        simp only [List.length_append, List.length_singleton, List.length_nil] at hb ⊢
        omega
      · rw [if_neg h3] at h
        exact absurd rfl h

/-- C2 (amended): the sampler never returns more than `limit` chunks (the
keyword query itself is limited to `limit` rows), and when the document has
more than `limit` chunks, the top matches leave room for the three anchors
(at most `limit - 3` of them) and neither chunk 0 nor the last chunk is already
a top match, both anchors are included in the returned set.  The anchors are
added only while the running total stays below `limit`, so when the top
matches already fill the limit no anchor is added (see the counterexample). -/
theorem searchInChunks_sample_bound_and_anchors (sqrtFn : ℚ → ℚ)
    (qe : Option (List ℚ)) (limit totalChunkCount : Nat)
    (keywordChunks semanticChunks : List ChunkRecord)
    (fetch : List Nat → List ChunkRecord)
    (hkw : keywordChunks.length ≤ limit)
    (hfetch : FetchContract totalChunkCount fetch) :
    (searchInChunksSelect sqrtFn qe limit totalChunkCount keywordChunks semanticChunks
        fetch).length ≤ limit
    ∧ (limit < totalChunkCount →
        (topMatchesOf sqrtFn qe limit keywordChunks semanticChunks).length + 3 ≤ limit →
        (0 ∉ (topMatchesOf sqrtFn qe limit keywordChunks semanticChunks).map
          fun r => r.chunk_index) →
        (totalChunkCount - 1 ∉
          (topMatchesOf sqrtFn qe limit keywordChunks semanticChunks).map
            fun r => r.chunk_index) →
        (∃ r ∈ searchInChunksSelect sqrtFn qe limit totalChunkCount keywordChunks
            semanticChunks fetch, r.chunk_index = 0)
        ∧ (∃ r ∈ searchInChunksSelect sqrtFn qe limit totalChunkCount keywordChunks
            semanticChunks fetch, r.chunk_index = totalChunkCount - 1)) := by
  have htop := topMatchesOf_length_le sqrtFn qe limit keywordChunks semanticChunks hkw
  constructor
  · simp only [searchInChunksSelect]
    by_cases hc : 0 < (contextIndicesOf limit totalChunkCount
        (topMatchesOf sqrtFn qe limit keywordChunks semanticChunks)).length
    · rw [if_pos hc]
      rw [List.length_mergeSort]
      have h1 := dedupByIndex_length_le
        (topMatchesOf sqrtFn qe limit keywordChunks semanticChunks ++
          fetch (contextIndicesOf limit totalChunkCount
            (topMatchesOf sqrtFn qe limit keywordChunks semanticChunks)))
      have hfl : (fetch (contextIndicesOf limit totalChunkCount
          (topMatchesOf sqrtFn qe limit keywordChunks semanticChunks))).length ≤
          (contextIndicesOf limit totalChunkCount
            (topMatchesOf sqrtFn qe limit keywordChunks semanticChunks)).length := by
        obtain ⟨hnd, hsub, _⟩ := hfetch (contextIndicesOf limit totalChunkCount
          (topMatchesOf sqrtFn qe limit keywordChunks semanticChunks))
        have hlen1 : ((fetch (contextIndicesOf limit totalChunkCount
            (topMatchesOf sqrtFn qe limit keywordChunks semanticChunks))).map
              fun r => r.chunk_index).toFinset.card =
            ((fetch (contextIndicesOf limit totalChunkCount
              (topMatchesOf sqrtFn qe limit keywordChunks semanticChunks))).map
                fun r => r.chunk_index).length :=
          List.toFinset_card_of_nodup hnd
        have hsub2 : ((fetch (contextIndicesOf limit totalChunkCount
            (topMatchesOf sqrtFn qe limit keywordChunks semanticChunks))).map
              fun r => r.chunk_index).toFinset ⊆
            (contextIndicesOf limit totalChunkCount
              (topMatchesOf sqrtFn qe limit keywordChunks semanticChunks)).toFinset := by
          intro x hx
          rw [List.mem_toFinset] at hx ⊢
          obtain ⟨r, hr, hrx⟩ := List.mem_map.mp hx
          rw [← hrx]
          exact hsub r hr
        have := Finset.card_le_card hsub2
        have hctx := List.toFinset_card_le (contextIndicesOf limit totalChunkCount
          (topMatchesOf sqrtFn qe limit keywordChunks semanticChunks))
        rw [hlen1, List.length_map] at this
        omega
      have hle := contextIndicesOf_room limit totalChunkCount
        (topMatchesOf sqrtFn qe limit keywordChunks semanticChunks)
        (by
          intro hz
          rw [hz] at hc
          simp at hc)
      rw [List.length_append] at h1
      omega
    · rw [if_neg hc]
      rw [List.length_mergeSort]
      have h1 := dedupByIndex_length_le
        (topMatchesOf sqrtFn qe limit keywordChunks semanticChunks ++ [])
      rw [List.length_append, List.length_nil] at h1
      omega
  · intro hN h3 h0 hend
    have hlim3 : 3 ≤ limit := by omega
    have hendpos : 0 < totalChunkCount - 1 := by omega
    have hctx : ∃ c2 : List Nat, 0 ∈ c2 ∧ c2.length ≤ 2 ∧
        contextIndicesOf limit totalChunkCount
          (topMatchesOf sqrtFn qe limit keywordChunks semanticChunks) =
          c2 ++ [totalChunkCount - 1] := by
      simp only [contextIndicesOf]
      have hc1 : 0 ∉ List.map (fun r => r.chunk_index)
            (topMatchesOf sqrtFn qe limit keywordChunks semanticChunks) ∧
          (topMatchesOf sqrtFn qe limit keywordChunks semanticChunks).length < limit :=
        ⟨h0, by omega⟩
      rw [if_pos hc1]
      by_cases hm : totalChunkCount / 2 ∉ List.map (fun r => r.chunk_index)
            (topMatchesOf sqrtFn qe limit keywordChunks semanticChunks) ∧
          (topMatchesOf sqrtFn qe limit keywordChunks semanticChunks).length +
            [0].length < limit
      · have hc3 : totalChunkCount - 1 ∉ List.map (fun r => r.chunk_index)
              (topMatchesOf sqrtFn qe limit keywordChunks semanticChunks) ∧
            (topMatchesOf sqrtFn qe limit keywordChunks semanticChunks).length +
              ([0] ++ [totalChunkCount / 2]).length < limit ∧ 0 < totalChunkCount - 1 := by
          refine ⟨hend, ?_, hendpos⟩
          simp only [List.length_append, List.length_singleton]
          omega
        rw [if_pos hm, if_pos hc3]
        exact ⟨[0] ++ [totalChunkCount / 2], by simp, by simp, rfl⟩
      · have hc3 : totalChunkCount - 1 ∉ List.map (fun r => r.chunk_index)
              (topMatchesOf sqrtFn qe limit keywordChunks semanticChunks) ∧
            (topMatchesOf sqrtFn qe limit keywordChunks semanticChunks).length +
              [0].length < limit ∧ 0 < totalChunkCount - 1 := by
          refine ⟨hend, ?_, hendpos⟩
          simp only [List.length_singleton]
          omega
        rw [if_neg hm, if_pos hc3]
        exact ⟨[0], by simp, by simp, rfl⟩
    obtain ⟨c2, hc2z, hc2len, hc2eq⟩ := hctx
    have hctxlen : 0 < (contextIndicesOf limit totalChunkCount
        (topMatchesOf sqrtFn qe limit keywordChunks semanticChunks)).length := by
      rw [hc2eq]; simp
    obtain ⟨_, _, hcomplete⟩ := hfetch (contextIndicesOf limit totalChunkCount
      (topMatchesOf sqrtFn qe limit keywordChunks semanticChunks))
    have hmem0 : (0 : Nat) ∈ contextIndicesOf limit totalChunkCount
        (topMatchesOf sqrtFn qe limit keywordChunks semanticChunks) := by
      rw [hc2eq]; exact List.mem_append_left _ hc2z
    have hmeme : totalChunkCount - 1 ∈ contextIndicesOf limit totalChunkCount
        (topMatchesOf sqrtFn qe limit keywordChunks semanticChunks) := by
      rw [hc2eq]; simp
    obtain ⟨r0, hr0mem, hr0idx⟩ := hcomplete 0 hmem0 (by omega)
    obtain ⟨re, hremem, hreidx⟩ := hcomplete (totalChunkCount - 1) hmeme (by omega)
    constructor
    · obtain ⟨r, hr, hri⟩ := dedupByIndex_keeps_key
        (topMatchesOf sqrtFn qe limit keywordChunks semanticChunks ++
          fetch (contextIndicesOf limit totalChunkCount
            (topMatchesOf sqrtFn qe limit keywordChunks semanticChunks))) 0
        (by
          rw [List.map_append]
          refine List.mem_append_right _ ?_
          exact List.mem_map.mpr ⟨r0, hr0mem, hr0idx⟩)
      refine ⟨r, ?_, hri⟩
      simp only [searchInChunksSelect]
      rw [if_pos hctxlen]
      rw [List.mem_mergeSort]
      exact hr
    · obtain ⟨r, hr, hri⟩ := dedupByIndex_keeps_key
        (topMatchesOf sqrtFn qe limit keywordChunks semanticChunks ++
          fetch (contextIndicesOf limit totalChunkCount
            (topMatchesOf sqrtFn qe limit keywordChunks semanticChunks)))
        (totalChunkCount - 1)
        (by
          rw [List.map_append]
          refine List.mem_append_right _ ?_
          exact List.mem_map.mpr ⟨re, hremem, hreidx⟩)
      refine ⟨r, ?_, hri⟩
      simp only [searchInChunksSelect]
      rw [if_pos hctxlen]
      rw [List.mem_mergeSort]
      exact hr

theorem fetchModel_contract (totalChunkCount : Nat) :
    FetchContract totalChunkCount (fetchModel totalChunkCount) := by
  intro ctx
  refine ⟨?_, ?_, ?_⟩
  · unfold fetchModel
    rw [List.map_map]
    have hcomp : ((fun r : ChunkRecord => r.chunk_index) ∘
        fun i => (⟨i, [], []⟩ : ChunkRecord)) = id := by
      funext i; rfl
    rw [hcomp, List.map_id]
    exact (natDedup_nodup ctx).filter _
  · intro r hr
    unfold fetchModel at hr
    obtain ⟨i, hi, rfl⟩ := List.mem_map.mp hr
    exact (mem_natDedup ctx i).mp (List.mem_of_mem_filter hi)
  · intro i hi hlt
    refine ⟨⟨i, [], []⟩, ?_, rfl⟩
    unfold fetchModel
    exact List.mem_map.mpr
      ⟨i, List.mem_filter.mpr ⟨(mem_natDedup ctx i).mpr hi, by simpa using hlt⟩, rfl⟩

/-- Keyword rows filling the whole result budget: ten matches, chunks 1..10 of
a 12-chunk file, none of them an anchor. -/
def cexKeywordRows : List ChunkRecord :=
  [⟨1, [], []⟩, ⟨2, [], []⟩, ⟨3, [], []⟩, ⟨4, [], []⟩, ⟨5, [], []⟩,
   ⟨6, [], []⟩, ⟨7, [], []⟩, ⟨8, [], []⟩, ⟨9, [], []⟩, ⟨10, [], []⟩]

/-- C2 counterexample: a 12-chunk document queried with `limit = 10` whose
keyword search matches chunks 1..10 — more chunks than the limit, and neither
chunk 0 nor chunk 11 among the top matches — yet the sampler returns neither
anchor, because every anchor guard requires the running total to stay below
`limit` and the top matches already fill it. -/
theorem searchInChunks_anchor_counterexample :
    cexKeywordRows.length ≤ 10 ∧ 10 < 12
    ∧ (∀ r ∈ topMatchesOf id none 10 cexKeywordRows [],
        r.chunk_index ≠ 0 ∧ r.chunk_index ≠ 12 - 1)
    ∧ (¬ ∃ r ∈ searchInChunksSelect id none 10 12 cexKeywordRows [] (fetchModel 12),
        r.chunk_index = 0)
    ∧ (¬ ∃ r ∈ searchInChunksSelect id none 10 12 cexKeywordRows [] (fetchModel 12),
        r.chunk_index = 12 - 1) := by
  have hall : ∀ x ∈ dedupByIndex (topMatchesOf id none 10 cexKeywordRows [] ++ []),
      x.chunk_index ≠ 0 ∧ x.chunk_index ≠ 12 - 1 := by decide
  have hnoctx : ¬ 0 < (contextIndicesOf 10 12
      (topMatchesOf id none 10 cexKeywordRows [])).length := by decide
  refine ⟨by decide, by decide, by decide, ?_, ?_⟩
  · rintro ⟨r, hr, hri⟩
    simp only [searchInChunksSelect] at hr
    rw [if_neg hnoctx] at hr
    exact (hall r (List.mem_mergeSort.mp hr)).1 hri
  · rintro ⟨r, hr, hri⟩
    simp only [searchInChunksSelect] at hr
    rw [if_neg hnoctx] at hr
    exact (hall r (List.mem_mergeSort.mp hr)).2 hri

/-- Keyword rows of the specification scenario: 7 matches in a 45-chunk file. -/
def scenarioKeywordRows : List ChunkRecord :=
  [⟨12, [], []⟩, ⟨15, [], []⟩, ⟨23, [], []⟩, ⟨28, [], []⟩,
   ⟨35, [], []⟩, ⟨38, [], []⟩, ⟨42, [], []⟩]

/-- Witness for `searchInChunks_sample_bound_and_anchors`: the 45-chunk
scenario with 7 top matches and `limit = 10` includes both anchors. -/
theorem searchInChunks_sample_bound_and_anchors_witness :
    (searchInChunksSelect id none 10 45 scenarioKeywordRows [] (fetchModel 45)).length ≤ 10
    ∧ (∃ r ∈ searchInChunksSelect id none 10 45 scenarioKeywordRows [] (fetchModel 45),
        r.chunk_index = 0)
    ∧ (∃ r ∈ searchInChunksSelect id none 10 45 scenarioKeywordRows [] (fetchModel 45),
        r.chunk_index = 45 - 1) := by
  have h := searchInChunks_sample_bound_and_anchors id none 10 45 scenarioKeywordRows []
    (fetchModel 45) (by decide) (fetchModel_contract 45)
  have h2 := h.2 (by norm_num) (by decide) (by decide) (by decide)
  exact ⟨h.1, h2.1, h2.2⟩

/-! ### Snippet extraction and the hybrid retriever (src/tools/search.ts)

The `hybrid_search_chunked` RPC, the metadata query with its filter translation
(`buildFilters`), and the embedding call are external; they are modelled by the
`SearchEnv` record.  The query augmentation, the fallback to a `null` query
embedding, the post-filtering/slicing of the RPC rows and the snippet assembly
are in-process and embedded below. -/

/-- JavaScript `String.prototype.replace` with a global constant pattern:
left-to-right, non-overlapping, the replacement is not rescanned. -/
def replaceAll (pat rep : List Char) : List Char → List Char
  | [] => []
  | c :: rest =>
    if h : pat ≠ [] ∧ leadsWith pat (c :: rest) then
      rep ++ replaceAll pat rep ((c :: rest).drop pat.length)
    else c :: replaceAll pat rep rest
termination_by s => s.length
decreasing_by
  · have hp : 0 < pat.length := List.length_pos.mpr h.1
    simp only [List.length_drop, List.length_cons]
    omega
  · simp only [List.length_cons]
    omega

/-- The entity decoding chain of `decodeHtmlEntities`. -/
def decodeHtmlEntities (text : List Char) : List Char :=
  replaceAll "&#x27;".data [Char.ofNat 39]
    (replaceAll "&#39;".data [Char.ofNat 39]
      (replaceAll "&quot;".data ['"']
        (replaceAll "&gt;".data ['>']
          (replaceAll "&lt;".data ['<']
            (replaceAll "&amp;".data ['&'] text)))))

/-- Worker for `String.prototype.split(/\s+/)`: pieces between maximal
whitespace runs, including the empty pieces JavaScript produces at the very
start and end. -/
def splitWsGo : Bool → List Char → List Char → List (List Char)
  | _, [], cur => [cur.reverse]
  | inWs, c :: rest, cur =>
    if c.isWhitespace then
      if inWs then splitWsGo true rest cur
      else cur.reverse :: splitWsGo true rest []
    else splitWsGo false rest (c :: cur)

/-- JavaScript `String.prototype.split(/\s+/)`. -/
def splitWs (s : List Char) : List (List Char) := splitWsGo false s []

/-- The `extractSnippet` helper: roughly 300 characters around the earliest
case-insensitive occurrence of any query term, or the first 300 characters. -/
def extractSnippet (content : List Char) (query : Option (List Char)) : List Char :=
  if content = [] then []
  else
    let decoded := decodeHtmlEntities content
    let firstPart := jsSubstring decoded 0 300 ++
      (if intLen decoded > 300 then "...".data else [])
    let forQuery := fun (q : List Char) =>
      let terms := splitWs (toLowerText q)
      let contentLower := toLowerText decoded
      let earliestMatch := terms.foldl (fun acc term =>
        let index := firstIndexOf contentLower term
        if index ≠ -1 ∧ (acc = -1 ∨ index < acc) then index else acc) (-1)
      if earliestMatch = -1 then firstPart
      else
        let start := max 0 (earliestMatch - 100)
        let stop := min (intLen decoded) (start + 300)
        let snippet := jsSubstring decoded start stop
        (if start > 0 then "...".data else []) ++ snippet ++
          (if stop < intLen decoded then "...".data else [])
    match query with
    | none => firstPart
    | some q => if q = [] then firstPart else forQuery q

/-- One row returned by the `hybrid_search_chunked` RPC. -/
structure RpcRow where
  path : List Char
  snippet : Option (List Char)
  score : ℚ
deriving DecidableEq

/-- One row of the metadata fetch over `files` (already filtered by
`buildFilters` on the store side). -/
structure FileMeta where
  path : List Char
  tags : Option (List (List Char))
  created_at : Option (List Char)
  body : List Char
deriving DecidableEq

/-- The recognized search filters. -/
structure SearchFilters where
  file_type : Option (List Char)
  tags : Option (List (List Char))
  author : Option (List Char)
  source : Option (List Char)
  after : Option (List Char)
  before : Option (List Char)

/-- One result of `searchNotes`. -/
structure SearchResult where
  path : List Char
  snippet : List Char
  tags : List (List Char)
  updated_at : List Char
  score : Option ℚ
deriving DecidableEq

/-- The collaborators of `hybridSearchWithFilters`: embedding availability and
outcome, the RPC, and the filtered metadata query. -/
structure SearchEnv where
  embedAvailable : Bool
  embedOutcome : Except Unit (List ℚ)
  rpc : List Char → Option (List ℚ) → Nat → Except (List Char) (List RpcRow)
  meta : List (List Char) → Option SearchFilters → Except (List Char) (List FileMeta)
  nowIso : List Char

/-- The value `new Map(filesMetadata.map(f => [f.path, f]))` holds for a
path: the last matching row. -/
def lookupMetaLast (metas : List FileMeta) (p : List Char) : Option FileMeta :=
  (metas.filter fun m => m.path == p).getLast?

/-- The people-search query augmentation: append the author filter to the
query text. -/
def searchQueryOf (query : List Char) (filters : Option SearchFilters) : List Char :=
  match filters with
  | some f =>
    match f.author with
    | some a => query ++ [' '] ++ a
    | none => query
  | none => query

/-- The query embedding used by the RPC: `null` when the backend is
unavailable or the embedding call threw. -/
def queryEmbeddingOf (env : SearchEnv) : Option (List ℚ) :=
  if env.embedAvailable then
    match env.embedOutcome with
    | Except.ok e => some e
    | Except.error _ => none
  else none

/-- The part of `hybridSearchWithFilters` after the query embedding was
settled: RPC call, metadata fetch, filter-and-slice, result assembly. -/
def hybridCore (env : SearchEnv) (query : List Char) (limit : Nat)
    (filters : Option SearchFilters) (searchQuery : List Char)
    (queryEmbedding : Option (List ℚ)) : Except (List Char) (List SearchResult) :=
  match env.rpc searchQuery queryEmbedding (limit * 3) with
  | Except.error e => Except.error ("Hybrid search RPC failed: ".data ++ e)
  | Except.ok data =>
    if data.length = 0 then Except.ok []
    else
      match env.meta (data.map fun r => r.path) filters with
      | Except.error e => Except.error ("Failed to fetch metadata: ".data ++ e)
      | Except.ok filesMetadata =>
        Except.ok (((data.filter fun r =>
            (filesMetadata.map fun m => m.path).contains r.path).take limit).map fun r =>
          let metadata := lookupMetaLast filesMetadata r.path
          { path := r.path
            snippet :=
              match r.snippet with
              | some snip =>
                if snip = [] then
                  extractSnippet ((metadata.map fun m => m.body).getD []) (some query)
                else snip
              | none => extractSnippet ((metadata.map fun m => m.body).getD []) (some query)
            tags := (metadata.bind fun m => m.tags).getD []
            updated_at := (metadata.bind fun m => m.created_at).getD env.nowIso
            score := some r.score })

/-- The `hybridSearchWithFilters` of src/tools/search.ts. -/
def hybridSearchWithFilters (env : SearchEnv) (query : List Char) (limit : Nat)
    (filters : Option SearchFilters) : Except (List Char) (List SearchResult) :=
  hybridCore env query limit filters (searchQueryOf query filters) (queryEmbeddingOf env)

/-- C4: when the embedding backend is unavailable or the query-embedding call
throws, `hybridSearchWithFilters` runs with a `null` query embedding — the
keyword leg of the RPC — and, whenever the RPC and the metadata fetch succeed,
returns their keyword results instead of throwing. -/
theorem hybridSearch_degrades_to_keyword (env : SearchEnv) (query : List Char)
    (limit : Nat) (filters : Option SearchFilters)
    (h : env.embedAvailable = false ∨ ∃ e, env.embedOutcome = Except.error e) :
    hybridSearchWithFilters env query limit filters =
      hybridCore env query limit filters (searchQueryOf query filters) none
    ∧ (∀ rows metas,
        env.rpc (searchQueryOf query filters) none (limit * 3) = Except.ok rows →
        env.meta (rows.map fun r => r.path) filters = Except.ok metas →
        ∃ results, hybridSearchWithFilters env query limit filters = Except.ok results) := by
  have hqe : queryEmbeddingOf env = none := by
    unfold queryEmbeddingOf
    rcases h with h | ⟨e, he⟩
    · rw [h]
      simp
    · rw [he]
      split <;> rfl
  have hrun : hybridSearchWithFilters env query limit filters =
      hybridCore env query limit filters (searchQueryOf query filters) none := by
    unfold hybridSearchWithFilters
    rw [hqe]
  refine ⟨hrun, ?_⟩
  intro rows metas hrpc hmeta
  rw [hrun]
  unfold hybridCore
  rw [hrpc]
  dsimp only
  by_cases hz : rows.length = 0
  · rw [if_pos hz]
    exact ⟨[], rfl⟩
  · rw [if_neg hz, hmeta]
    dsimp only
    exact ⟨_, rfl⟩

/-- A degraded search environment: no embedding backend, an RPC answering the
keyword leg with one row, and an empty metadata table. -/
def searchEnvW : SearchEnv :=
  { embedAvailable := false
    embedOutcome := Except.error ()
    rpc := fun _ _ _ => Except.ok []
    meta := fun _ _ => Except.ok []
    nowIso := [] }

/-- Witness for `hybridSearch_degrades_to_keyword`: with the backend
unavailable the search still answers from the keyword leg. -/
theorem hybridSearch_degrades_to_keyword_witness :
    ∃ results, hybridSearchWithFilters searchEnvW ['a'] 10 none = Except.ok results :=
  (hybridSearch_degrades_to_keyword searchEnvW ['a'] 10 none (Or.inl rfl)).2
    [] [] rfl rfl

/-! ### Read tool (read_note with optional search)

The store lookups of `readNote`/`searchInChunks`, the yaml rendering of the
frontmatter, the locale date and number formatting are environment inputs;
the grep, the dispatch on the body length and the sampled-chunk output assembly
are in-process. -/

/-- Decimal rendering of a number interpolated into a template string. -/
def natText (n : Nat) : List Char := (Nat.repr n).data

/-- One grep hit of `grepInFile`: 1-based line number, the line, and up to two
lines of context on each side. -/
structure GrepMatch where
  lineNum : Nat
  line : List Char
  context : List (List Char)
deriving DecidableEq

/-- The match loop of `grepInFile`: all lines containing the query,
case-insensitively, with their context windows. -/
def grepMatches (body q : List Char) : List GrepMatch :=
  let lines := body.splitOn '\n'
  let searchLower := toLowerText q
  (List.range lines.length).filterMap fun i =>
    if containsSub (toLowerText (lines.getD i [])) searchLower then
      some ⟨i + 1, lines.getD i [],
        (lines.take i).drop (i - 2) ++ [lines.getD i []] ++ ((lines.take (i + 3)).drop (i + 1))⟩
    else none

/-- The `grepInFile` helper of the read tool: plain case-insensitive line grep
over the body with formatted output (first 10 matches shown). -/
def grepInFile (path body q : List Char) : List Char :=
  let ms := grepMatches body q
  if ms.length = 0 then
    "No matches found for \"".data ++ q ++ "\" in ".data ++ path
  else
    "Found ".data ++ natText ms.length ++ " match".data ++
      (if ms.length = 1 then [] else "es".data) ++ " for \"".data ++ q ++
      "\" in ".data ++ path ++ ":\n\n".data ++
      ((ms.take 10).enum.map fun p =>
        "--- Match ".data ++ natText (p.1 + 1) ++ " (line ".data ++
          natText p.2.lineNum ++ ") ---\n".data ++
          List.intercalate ['\n'] p.2.context ++ "\n\n".data).flatten ++
      (if ms.length > 10 then
        "... and ".data ++ natText (ms.length - 10) ++ " more matches\n".data
      else [])

/-- The collaborators of `searchInChunks`: embedding availability and outcome,
the file-id lookup, the chunk count, the keyword / semantic / context chunk
queries, the square root of the similarity scoring and the locale number
formatting. -/
structure ChunkSearchEnv where
  embedAvailable : Bool
  embedOutcome : Except Unit (List ℚ)
  fileId : List Char → Option (List Char)
  chunkCount : List Char → Except (List Char) (Option Nat)
  keywordRows : List Char → List Char → Nat → Except (List Char) (List ChunkRecord)
  semanticRows : List Char → Nat → Except (List Char) (List ChunkRecord)
  contextFetch : List Char → List Nat → Except (List Char) (List ChunkRecord)
  sqrtFn : ℚ → ℚ
  numFormat : Nat → List Char

/-- The output assembly of `searchInChunks`: header, chunk distribution,
labelled sections in document order, and the multi-turn tips. -/
def formatSampled (numFormat : Nat → List Char) (filePath searchQuery : List Char)
    (totalChunkCount : Nat) (uniqueChunks : List ChunkRecord) : List Char :=
  let middleIdx := totalChunkCount / 2
  let endIdx := totalChunkCount - 1
  let totalChars := (uniqueChunks.map fun c => c.chunk_text.length).sum
  let chunkLabels := List.intercalate ", ".data (uniqueChunks.map fun c =>
    if c.chunk_index = 0 then "0 (intro)".data
    else if c.chunk_index = middleIdx then natText c.chunk_index ++ " (middle)".data
    else if c.chunk_index = endIdx then natText c.chunk_index ++ " (end)".data
    else natText c.chunk_index)
  "Found ".data ++ natText uniqueChunks.length ++ " relevant section".data ++
    (if uniqueChunks.length = 1 then [] else "s".data) ++ " for \"".data ++
    searchQuery ++ "\" in ".data ++ filePath ++ ":\n\n".data ++
    "Showing chunks: ".data ++ chunkLabels ++ "\n".data ++
    "Total: ".data ++ natText totalChunkCount ++ " chunks in file (~".data ++
    numFormat totalChars ++ " chars)\n\n".data ++
    (uniqueChunks.enum.map fun p =>
      "--- Section ".data ++ natText (p.1 + 1) ++ ": ".data ++
        (if p.2.chunk_index = 0 then "Introduction".data
          else if p.2.chunk_index = middleIdx then "Middle Section".data
          else if p.2.chunk_index = endIdx then "End Section".data
          else "Relevant Match".data) ++
        " (chunk ".data ++ natText p.2.chunk_index ++ "/".data ++
        natText (totalChunkCount - 1) ++ ") ---\n".data ++
        p.2.chunk_text ++ "\n\n".data).flatten ++
    "💡 Multi-turn tips:\n".data ++
    "- Ask follow-up questions to explore specific topics\n".data ++
    "- Request \"chunks around ".data ++ natText middleIdx ++
    "\" for more context near a specific section\n".data ++
    "- Search for different keywords to find other relevant sections".data

/-- The `searchInChunks` of the chunk-sampling read tool: semantic + keyword
chunk search with smart sampling over one file, returning the formatted
output.  A failed semantic fetch is absorbed (keyword-only merge), a failed
context fetch is absorbed (no anchors shown). -/
def searchInChunks (env : ChunkSearchEnv) (filePath searchQuery : List Char)
    (limit : Nat) : Except (List Char) (List Char) :=
  let queryEmbedding : Option (List ℚ) :=
    if env.embedAvailable then
      match env.embedOutcome with
      | Except.ok e => some e
      | Except.error _ => none
    else none
  match env.fileId filePath with
  | none => Except.error ("File not found: ".data ++ filePath)
  | some fid =>
    match env.chunkCount fid with
    | Except.error e => Except.error ("Failed to count chunks: ".data ++ e)
    | Except.ok cnt =>
      let totalChunkCount := cnt.getD 0
      if totalChunkCount = 0 then
        Except.ok ("No searchable chunks found for \"".data ++ searchQuery ++
          "\" in ".data ++ filePath ++
          "\n\n💡 File may not be indexed yet.".data)
      else
        match env.keywordRows fid searchQuery limit with
        | Except.error e => Except.error ("Keyword search failed: ".data ++ e)
        | Except.ok keywordChunks =>
          let semantic :=
            match queryEmbedding with
            | some q =>
              match env.semanticRows fid limit with
              | Except.ok rows => some (q, rows)
              | Except.error _ => none
            | none => none
          let uniqueChunks := searchInChunksSelect env.sqrtFn
            (semantic.map fun p => p.1) limit totalChunkCount keywordChunks
            ((semantic.map fun p => p.2).getD [])
            (fun ctx =>
              match env.contextFetch fid ctx with
              | Except.ok rows => rows
              | Except.error _ => [])
          if uniqueChunks.length = 0 then
            Except.ok ("No matches found for \"".data ++ searchQuery ++
              "\" in ".data ++ filePath ++
              "\n\n💡 Try different keywords or read the full file.".data)
          else
            Except.ok (formatSampled env.numFormat filePath searchQuery
              totalChunkCount uniqueChunks)

/-- The file row returned by the `readNote` lookup. -/
structure FileData where
  path : List Char
  body : List Char
  frontmatter : Option (List (List Char × List Char))
  updated_at : List Char

/-- The collaborators of the read tool outside the chunk search: the file
lookup (`ok none` models the PGRST116 not-found answer), the yaml rendering,
the locale date and number formatting. -/
structure ReadEnv where
  file : List Char → Except (List Char) (Option FileData)
  yamlDump : List (List Char × List Char) → List Char
  dateFormat : List Char → List Char
  numFormat : Nat → List Char

/-- The `readNote` lookup: reject an empty path, pass not-found through, wrap
other store errors. -/
def readNote (env : ReadEnv) (path : List Char) : Except (List Char) (Option FileData) :=
  if path = [] then
    Except.error "Invalid path parameter: must be a non-empty string".data
  else
    match env.file path with
    | Except.error e => Except.error ("Read failed: Database query failed: ".data ++ e)
    | Except.ok v => Except.ok v

/-- The read-mode output of `readNoteTool`: frontmatter block, body (truncated
at 50,000 characters with a hint), and the metadata footer. -/
def readFullOutput (env : ReadEnv) (fd : FileData) : List Char :=
  let body := fd.body
  (match fd.frontmatter with
    | some fm =>
      if fm ≠ [] then "---\n".data ++ env.yamlDump fm ++ "\n---\n\n".data else []
    | none => []) ++
  (if body.length > 50000 then
    jsSubstring body 0 50000 ++
      "\n\n--- Content Truncated ---\n".data ++
      "Total: ".data ++ env.numFormat body.length ++
      " chars, showing first ".data ++ env.numFormat 50000 ++ " chars\n".data ++
      "💡 Use read_note with search parameter to find specific sections:\n".data ++
      "   read_note(path: \"".data ++ fd.path ++
      "\", search: \"your keywords\")".data
  else body) ++
  "\n\n---\nPath: ".data ++ fd.path ++ "\nLast updated: ".data ++
    env.dateFormat fd.updated_at

/-- The `readNoteTool` handler: look the file up; in search mode dispatch on
the body length — plain grep below 50,000 characters, sampled chunk search at
or above it — otherwise return the full (possibly truncated) file. -/
def readNoteTool (env : ReadEnv) (cenv : ChunkSearchEnv) (path : List Char)
    (search : Option (List Char)) : Except (List Char) (List Char) :=
  match readNote env path with
  | Except.error e => Except.error e
  | Except.ok none => Except.ok ("File not found: ".data ++ path)
  | Except.ok (some fileData) =>
    match search with
    | some q =>
      if q ≠ [] then
        if fileData.body.length < 50000 then
          Except.ok (grepInFile fileData.path fileData.body q)
        else searchInChunks cenv path q 10
      else Except.ok (readFullOutput env fileData)
    | none => Except.ok (readFullOutput env fileData)

/-- C10: a `read_note` call with a non-empty search string on an existing file
uses the sampled chunk search exactly when the stored body has at least 50,000
characters; on any shorter body it returns the plain case-insensitive line
grep of the body, and its answer does not depend on the chunk/embedding
environment at all. -/
theorem readNoteTool_search_dispatch (env : ReadEnv) (cenv cenv' : ChunkSearchEnv)
    (path q : List Char) (fd : FileData) (hq : q ≠ [])
    (hfile : readNote env path = Except.ok (some fd)) :
    (fd.body.length < 50000 →
      readNoteTool env cenv path (some q) = Except.ok (grepInFile fd.path fd.body q)
      ∧ readNoteTool env cenv path (some q) = readNoteTool env cenv' path (some q))
    ∧ (50000 ≤ fd.body.length →
      readNoteTool env cenv path (some q) = searchInChunks cenv path q 10) := by
  have hrun : ∀ c : ChunkSearchEnv, readNoteTool env c path (some q) =
      if fd.body.length < 50000 then Except.ok (grepInFile fd.path fd.body q)
      else searchInChunks c path q 10 := by
    intro c
    unfold readNoteTool
    rw [hfile]
    dsimp only
    rw [if_pos hq]
  constructor
  · intro hlen
    constructor
    · rw [hrun cenv, if_pos hlen]
    · rw [hrun cenv, hrun cenv', if_pos hlen, if_pos hlen]
  · intro hlen
    rw [hrun cenv, if_neg (not_lt.mpr hlen)]

/-- A concrete small file for the dispatch witness. -/
def fdW : FileData := ⟨['p'], ['a', 'b'], none, []⟩

/-- A read environment returning the small file for every path. -/
def readEnvW : ReadEnv :=
  { file := fun _ => Except.ok (some fdW)
    yamlDump := fun _ => []
    dateFormat := fun d => d
    numFormat := natText }

/-- An empty chunk-search environment. -/
def chunkEnvW : ChunkSearchEnv :=
  { embedAvailable := false
    embedOutcome := Except.error ()
    fileId := fun _ => none
    chunkCount := fun _ => Except.ok none
    keywordRows := fun _ _ _ => Except.ok []
    semanticRows := fun _ _ => Except.ok []
    contextFetch := fun _ _ => Except.ok []
    sqrtFn := id
    numFormat := natText }

/-- A second chunk-search environment that disagrees with `chunkEnvW`
everywhere it could matter. -/
def chunkEnvW2 : ChunkSearchEnv :=
  { embedAvailable := true
    embedOutcome := Except.ok [(1 : ℚ)]
    fileId := fun p => some p
    chunkCount := fun _ => Except.ok (some 3)
    keywordRows := fun _ _ _ => Except.ok [⟨1, ['x'], []⟩]
    semanticRows := fun _ _ => Except.ok [⟨2, ['y'], [(1 : ℚ)]⟩]
    contextFetch := fun _ ctx => Except.ok (fetchModel 3 ctx)
    sqrtFn := id
    numFormat := natText }

/-- Witness for `readNoteTool_search_dispatch`: a 2-character body is grepped
and the answer ignores the chunk environment. -/
theorem readNoteTool_search_dispatch_witness :
    readNoteTool readEnvW chunkEnvW ['p'] (some ['a']) =
      Except.ok (grepInFile fdW.path fdW.body ['a'])
    ∧ readNoteTool readEnvW chunkEnvW ['p'] (some ['a']) =
      readNoteTool readEnvW chunkEnvW2 ['p'] (some ['a']) := by
  have h := (readNoteTool_search_dispatch readEnvW chunkEnvW chunkEnvW2 ['p'] ['a'] fdW
    (by decide) (by rfl)).1 (by decide)
  exact h

end VaultMCP
